import Mathlib

/-!
Verification of the PGSL lattice engine (`services/cahEngine.ts`, class
`PGSLEngine`) against its specification.

Shallow embedding notes:
* JavaScript objects used as maps (`atomRegistry`, `fragmentRegistry`,
  `nodeRepository`) are modelled as association lists in insertion order:
  JS string-keyed objects iterate in insertion order, `delete` removes the
  entry, and the engine never assigns to an existing key.
* `fragmentRegistry` is keyed by `JSON.stringify(content)` in the source;
  `JSON.stringify` is injective on arrays of strings, so we key directly by
  the content list.
* Minted URIs use `crypto.randomUUID()` in the source.  We model the
  generator by a monotone counter producing a unique suffix per call; the
  suffix is an opaque stand-in for a fresh UUID.
* `new Date().toISOString()` (the `prov:generatedAtTime` field) and the
  `prov:wasAttributedTo` agent are provenance metadata untouched by any
  claim; they are not modelled.
* Listener callbacks carry no data; `notify()` is modelled by a counter of
  notifications fired (each subscribed listener is invoked once per tick).
-/

/-- A JS primitive value (`Value = string | number` in `types.ts`).
Claims only exercise integral numbers, so the number case is `Int`. -/
inductive Value where
  | str (s : String)
  | num (n : Int)
deriving DecidableEq, Repr

/-- JavaScript `String(value)` for the two value shapes. -/
def Value.jsString : Value → String
  | .str s => s
  | .num n => toString n

/-- A repository node: `AtomNode` or `FragmentNode` from `types.ts`.
An atom stores `"rdf:value"`; its `"pgsl:level"` and `"pgsl:height"` are the
literal `0`.  A fragment stores level, height, ordered content and the
optional constituent pair.  Both store their own `"@id"`. -/
inductive NodeR where
  | atom (nodeId : String) (value : Value)
  | fragment (nodeId : String) (level : Nat) (height : Nat)
      (content : List String) (constituents : Option (String × String))
deriving DecidableEq, Repr

/-- The `"@id"` field of a node. -/
def NodeR.nid : NodeR → String
  | .atom i _ => i
  | .fragment i _ _ _ _ => i

/-- The `"pgsl:height"` field (literal `0` for atoms). -/
def NodeR.heightN : NodeR → Nat
  | .atom _ _ => 0
  | .fragment _ _ h _ _ => h

/-- Whether the node's `"@type"` includes `pgsl:Atom`. -/
def NodeR.isAtomN : NodeR → Bool
  | .atom _ _ => true
  | .fragment _ _ _ _ _ => false

/-- A singleton wrapper fragment: content of length 1, null constituents. -/
def NodeR.isWrapperN : NodeR → Bool
  | .fragment _ _ _ c none => c.length == 1
  | _ => false

/-- A composite fragment: non-null constituents. -/
def NodeR.isCompositeN : NodeR → Bool
  | .fragment _ _ _ _ (some _) => true
  | _ => false

/-- `PGSLState` plus the UUID source and the notification tally. -/
structure EngineState where
  atomRegistry : List (String × String)
  fragmentRegistry : List (List String × String)
  nodeRepository : List (String × NodeR)
  counter : Nat
  notifications : Nat
deriving DecidableEq, Repr

/-- First-match association-list lookup (JS `obj[key]`). -/
def lookupL {κ α : Type} [DecidableEq κ] : List (κ × α) → κ → Option α
  | [], _ => none
  | e :: t, k => if e.1 = k then some e.2 else lookupL t k

/-- Stand-in for the UUID suffix of the `n`-th minted identifier. -/
def mintSuffix (n : Nat) : String := String.mk (List.replicate (n + 1) 'u')

/-- `mintURI` from the engine: `authority/<atoms|fragments>/<uuid>` with the
default authority (no claim exercises `setFederationConfig`). -/
def mintURI (isAtom : Bool) (n : Nat) : String :=
  (if isAtom then "http://localhost:3000/atoms/"
   else "http://localhost:3000/fragments/") ++ mintSuffix n

/-- `getNode(uri)`. -/
def getNode (s : EngineState) (uri : String) : Option NodeR :=
  lookupL s.nodeRepository uri

/-- `getFragmentUri(content)`. -/
def getFragmentUri (s : EngineState) (content : List String) : Option String :=
  lookupL s.fragmentRegistry content

/-- `notify()`: every subscribed listener fires once. -/
def notify (s : EngineState) : EngineState :=
  { s with notifications := s.notifications + 1 }

/-- The fresh state built by the constructor. -/
def initState : EngineState :=
  { atomRegistry := [], fragmentRegistry := [], nodeRepository := [],
    counter := 0, notifications := 0 }

/-- `reset()`.  The UUID source is ambient, so the mint counter survives. -/
def reset (s : EngineState) : EngineState :=
  { atomRegistry := [], fragmentRegistry := [], nodeRepository := [],
    counter := s.counter, notifications := s.notifications + 1 }

/-- `deleteNode(uri)`: drop the repository entry, purge registry entries
whose value is `uri`, fire one notification. -/
def deleteNode (s : EngineState) (uri : String) : EngineState :=
  { s with
    nodeRepository := s.nodeRepository.filter (fun e => !(e.1 == uri)),
    atomRegistry := s.atomRegistry.filter (fun e => !(e.2 == uri)),
    fragmentRegistry := s.fragmentRegistry.filter (fun e => !(e.2 == uri)),
    notifications := s.notifications + 1 }

/-- `getCanonicalAtom(value)`: registry hit returns the cached id with no
mutation; otherwise mint, insert into repository and registry, notify. -/
def getCanonicalAtom (s : EngineState) (v : Value) : String × EngineState :=
  match lookupL s.atomRegistry v.jsString with
  | some uri => (uri, s)
  | none =>
    let uri := mintURI true s.counter
    (uri,
      { s with
        counter := s.counter + 1,
        nodeRepository := s.nodeRepository ++ [(uri, .atom uri v)],
        atomRegistry := s.atomRegistry ++ [(v.jsString, uri)],
        notifications := s.notifications + 1 })

/-- Height of a referenced node, `0` when the id does not resolve locally. -/
def heightOfUri (s : EngineState) (u : String) : Nat :=
  match getNode s u with
  | some n => n.heightN
  | none => 0

/-- `getCanonicalFragment(content, constituents)`: registry hit returns the
cached id; otherwise compute the topological height (missing constituents
count as height 0), mint, insert, register.  Does not notify. -/
def getCanonicalFragment (s : EngineState) (content : List String)
    (constituents : Option (String × String)) : String × EngineState :=
  match lookupL s.fragmentRegistry content with
  | some uri => (uri, s)
  | none =>
    let uri := mintURI false s.counter
    let height :=
      match constituents with
      | some (l, r) => max (heightOfUri s l) (heightOfUri s r) + 1
      | none => (match content with | [] => 0 | c :: _ => heightOfUri s c) + 1
    (uri,
      { s with
        counter := s.counter + 1,
        nodeRepository := s.nodeRepository ++
          [(uri, .fragment uri content.length height content constituents)],
        fragmentRegistry := s.fragmentRegistry ++ [(content, uri)] })

/-- Does a character list contain `needle` as a contiguous run
(JS `String.prototype.includes`)? -/
def hasInfixChars (needle : List Char) : List Char → Bool
  | [] => needle.isEmpty
  | c :: t => needle.isPrefixOf (c :: t) || hasInfixChars needle t

/-- The "already an identifier" heuristic from `ingestSequence` step 1:
`strItem.includes('://') || strItem.startsWith('did:')`. -/
def isURIString (str : String) : Bool :=
  hasInfixChars "://".data str.data || str.startsWith "did:"

/-- Step 1 of `ingestSequence`: normalize each item to a URI, passing
URI-shaped strings through and canonicalizing values as atoms. -/
def normalizeItems : EngineState → List Value → List String × EngineState
  | s, [] => ([], s)
  | s, it :: rest =>
    let p := if isURIString it.jsString then (it.jsString, s)
             else getCanonicalAtom s it
    let q := normalizeItems p.2 rest
    (p.1 :: q.1, q.2)

/-- Step 2 of `ingestSequence`: the level-1 wrapper for every base URI. -/
def buildWrappers : EngineState → List String → List String × EngineState
  | s, [] => ([], s)
  | s, u :: rest =>
    let p := getCanonicalFragment s [u] none
    let q := buildWrappers p.2 rest
    (p.1 :: q.1, q.2)

/-- JS `baseUris.slice(i, i + len)`. -/
def sliceL (l : List String) (i len : Nat) : List String :=
  (l.drop i).take len

/-- One inner-loop iteration of `ingestSequence` step 4 at offset `i` for
the current length `len`: look up both constituents, skip when either is
missing, otherwise canonicalize and record the top id when `len = N`. -/
def ingestStep (N : Nat) (base : List String) (len : Nat)
    (acc : String × EngineState) (i : Nat) : String × EngineState :=
  let s := acc.2
  let currentContent := sliceL base i len
  let leftContent := sliceL base i (len - 1)
  let rightContent := sliceL base (i + 1) (len - 1)
  match lookupL s.fragmentRegistry leftContent,
        lookupL s.fragmentRegistry rightContent with
  | some leftUri, some rightUri =>
    let p := getCanonicalFragment s currentContent (some (leftUri, rightUri))
    (if len = N then p.1 else acc.1, p.2)
  | _, _ => acc

/-- The double loop of `ingestSequence` step 4: lengths `2..N`, offsets
`0..N-len`. -/
def ingestLoop (base : List String) (N : Nat) (acc : String × EngineState) :
    String × EngineState :=
  (List.range' 2 (N - 1)).foldl
    (fun acc2 len => (List.range (N - len + 1)).foldl (ingestStep N base len) acc2)
    acc

/-- `ingestSequence(items)`.  The empty sequence throws before any mutation,
modelled as result `none` with the state returned unchanged. -/
def ingestSequence (s : EngineState) (items : List Value) :
    Option String × EngineState :=
  if items.isEmpty then (none, s)
  else
    let nr := normalizeItems s items
    let wr := buildWrappers nr.2 nr.1
    if wr.1.length = 1 then (some (wr.1.headD ""), notify wr.2)
    else
      let r := ingestLoop nr.1 nr.1.length (wr.1.headD "", wr.2)
      (some r.1, notify r.2)

/-- `promoteToStructural(uri)`: an atom id becomes its wrapper id when one
exists. -/
def promoteToStructural (s : EngineState) (uri : String) : String :=
  match getNode s uri with
  | some (.atom _ _) =>
    match getFragmentUri s [uri] with
    | some w => w
    | none => uri
  | _ => uri

/-- `demoteToAtom(uri)`: a level-1 wrapper with singleton content becomes
its wrapped id. -/
def demoteToAtom (s : EngineState) (uri : String) : String :=
  match getNode s uri with
  | some (.fragment _ 1 _ [c] _) => c
  | _ => uri

/-- `findParentNode(leftUri, rightUri)`: promote both, scan the repository
in insertion order for the first fragment with exactly those constituents. -/
def findParentNode (s : EngineState) (leftUri rightUri : String) : Option String :=
  let safeLeft := promoteToStructural s leftUri
  let safeRight := promoteToStructural s rightUri
  (s.nodeRepository.find? (fun e =>
    match e.2 with
    | .fragment _ _ _ _ (some (a, b)) => a == safeLeft && b == safeRight
    | _ => false)).map (fun e => e.2.nid)

/-- A neighbor-scan direction. -/
inductive Direction where
  | left
  | right
deriving DecidableEq, Repr

/-- `findNeighbors(targetUri, direction)`: promote the target, scan all
fragments' constituent pairs, demote each found neighbor.  The guard on the
raw neighbor mirrors JS truthiness (`if (rawNeighbor)`). -/
def findNeighbors (s : EngineState) (targetUri : String) (dir : Direction) :
    List (String × String) :=
  let effectiveTarget := promoteToStructural s targetUri
  s.nodeRepository.filterMap (fun e =>
    match e.2 with
    | .fragment nid0 _ _ _ (some (a, b)) =>
      let raw : Option String :=
        match dir with
        | .left => if b = effectiveTarget then some a else none
        | .right => if a = effectiveTarget then some b else none
      match raw with
      | some rn => if rn = "" then none else some (demoteToAtom s rn, nid0)
      | none => none
    | _ => none)

mutual
/-- `resolveContentString(uri)` with explicit fuel standing in for the call
stack; `none` means the fuel ran out (never happens on engine states). -/
def resolveContentString (s : EngineState) : Nat → String → Option String
  | 0, _ => none
  | f + 1, uri =>
    match getNode s uri with
    | none => some "<?>"
    | some (.atom _ v) => some v.jsString
    | some (.fragment _ _ _ content _) =>
      match content with
      | [] => some "()"
      | [c] => resolveContentString s f c
      | _ =>
        match resolveParts s f content with
        | some parts => some ("(" ++ String.intercalate " " parts ++ ")")
        | none => none
termination_by f _ => (f, 0)

/-- Resolves every content entry (the `content.map(...)` in the source). -/
def resolveParts (s : EngineState) : Nat → List String → Option (List String)
  | _, [] => some []
  | f, c :: rest =>
    match resolveContentString s f c, resolveParts s f rest with
    | some x, some xs => some (x :: xs)
    | _, _ => none
termination_by f l => (f, l.length + 1)
end

/-- Number of atom nodes in the repository. -/
def countAtoms (s : EngineState) : Nat :=
  (s.nodeRepository.filter (fun e => e.2.isAtomN)).length

/-- Number of singleton wrapper fragments in the repository. -/
def countWrappers (s : EngineState) : Nat :=
  (s.nodeRepository.filter (fun e => e.2.isWrapperN)).length

/-- Number of composite fragments in the repository. -/
def countComposites (s : EngineState) : Nat :=
  (s.nodeRepository.filter (fun e => e.2.isCompositeN)).length

/-- States reachable by the public mutating operations. -/
inductive Reachable : EngineState → Prop
  | init : Reachable initState
  | canon (s : EngineState) (v : Value) :
      Reachable s → Reachable (getCanonicalAtom s v).2
  | ingest (s : EngineState) (items : List Value) :
      Reachable s → Reachable (ingestSequence s items).2
  | del (s : EngineState) (uri : String) :
      Reachable s → Reachable (deleteNode s uri)
  | resetStep (s : EngineState) :
      Reachable s → Reachable (reset s)

/-- A string reference is compatible with the mint counter `c`: it is not a
minted identifier of index `≥ c`.  Real UUIDs make a collision between an
ingested reference and a not-yet-minted identifier impossible; this predicate
is the counter-model counterpart of that global uniqueness. -/
def refOK (c : Nat) (r : String) : Prop :=
  ∀ b i, r = mintURI b i → i < c

/-- States reachable without `deleteNode`, ingesting only references that do
not collide with not-yet-minted identifiers. -/
inductive ReachableND : EngineState → Prop
  | init : ReachableND initState
  | canon (s : EngineState) (v : Value) :
      ReachableND s → ReachableND (getCanonicalAtom s v).2
  | ingest (s : EngineState) (items : List Value) :
      ReachableND s →
      (∀ it ∈ items, refOK s.counter (Value.jsString it)) →
      ReachableND (ingestSequence s items).2
  | resetStep (s : EngineState) :
      ReachableND s → ReachableND (reset s)

/-- All identifiers a node refers to: its content list and, for a composite,
its two constituents. -/
def refsOf : NodeR → List String
  | .atom _ _ => []
  | .fragment _ _ _ c cs =>
    c ++ (match cs with | some (a, b) => [a, b] | none => [])

/-- The height law of §3, evaluated against the current repository: a
composite's height is `max(height(left), height(right)) + 1`, a wrapper's is
`height(content[0]) + 1`, an unresolved reference contributes height `0`.
Atoms carry the literal height `0`. -/
def heightOk (s : EngineState) : NodeR → Bool
  | .atom _ _ => true
  | .fragment _ _ h content cs =>
    match cs with
    | some (l, r) => h == max (heightOfUri s l) (heightOfUri s r) + 1
    | none => h == (match content with | [] => 0 | c :: _ => heightOfUri s c) + 1

/-- Every reference stored in the repository is compatible with the mint
counter (no dangling reference can be captured by a later mint). -/
def RefsInv (s : EngineState) : Prop :=
  ∀ e ∈ s.nodeRepository, ∀ r ∈ refsOf e.2, refOK s.counter r

/-- Every repository node satisfies the height law. -/
def HeightsInv (s : EngineState) : Prop :=
  ∀ e ∈ s.nodeRepository, heightOk s e.2 = true

/-- Structural well-formedness of an engine state: repository keys are
freshly minted and match the stored `"@id"`; registries are key- and
value-duplicate-free caches of the repository (invariant R1); constituent
pairs are minted fragment identifiers. -/
structure WF (s : EngineState) : Prop where
  repoMinted : ∀ e ∈ s.nodeRepository,
    (∃ b i, e.1 = mintURI b i ∧ i < s.counter) ∧ e.2.nid = e.1
  repoKeysNodup : (s.nodeRepository.map Prod.fst).Nodup
  atomKeysNodup : (s.atomRegistry.map Prod.fst).Nodup
  fragKeysNodup : (s.fragmentRegistry.map Prod.fst).Nodup
  atomValsNodup : (s.atomRegistry.map Prod.snd).Nodup
  fragValsNodup : (s.fragmentRegistry.map Prod.snd).Nodup
  atomValsMinted : ∀ e ∈ s.atomRegistry, ∃ i, e.2 = mintURI true i ∧ i < s.counter
  fragValsMinted : ∀ e ∈ s.fragmentRegistry, ∃ i, e.2 = mintURI false i ∧ i < s.counter
  atomRegNode : ∀ e ∈ s.atomRegistry,
    ∃ v, getNode s e.2 = some (.atom e.2 v) ∧ Value.jsString v = e.1
  fragRegNode : ∀ e ∈ s.fragmentRegistry,
    ∃ h cs, getNode s e.2 = some (.fragment e.2 e.1.length h e.1 cs)
  atomNodeReg : ∀ e ∈ s.nodeRepository, ∀ v, e.2 = NodeR.atom e.1 v →
    lookupL s.atomRegistry (Value.jsString v) = some e.1
  fragNodeReg : ∀ e ∈ s.nodeRepository, ∀ lvl h c cs,
    e.2 = NodeR.fragment e.1 lvl h c cs → lookupL s.fragmentRegistry c = some e.1
  constMinted : ∀ e ∈ s.nodeRepository, ∀ lvl h c a b,
    e.2 = NodeR.fragment e.1 lvl h c (some (a, b)) →
    (∃ i, a = mintURI false i ∧ i < s.counter) ∧
      ∃ i, b = mintURI false i ∧ i < s.counter

/-- Growth ordering between engine states: registries only gain entries
(existing lookups keep their values) and the mint counter never decreases.
Every operation inside a single `ingestSequence` call is monotone. -/
structure Mono (s t : EngineState) : Prop where
  atomReg : ∀ k v, lookupL s.atomRegistry k = some v → lookupL t.atomRegistry k = some v
  fragReg : ∀ k v, lookupL s.fragmentRegistry k = some v →
    lookupL t.fragmentRegistry k = some v
  counterLe : s.counter ≤ t.counter

/-- The atom identifier a value resolves to through the atom registry. -/
def atomUriOf (s : EngineState) (it : Value) : String :=
  (lookupL s.atomRegistry it.jsString).getD ""

/-- The atom identifiers of a whole item list. -/
def baseOfItems (s : EngineState) (items : List Value) : List String :=
  items.map (atomUriOf s)

/-- Splits a character list on `'/'` (JS `uri.split('/')`). -/
def splitSegs : List Char → List (List Char)
  | [] => [[]]
  | c :: t =>
    let r := splitSegs t
    if c = '/' then [] :: r
    else
      match r with
      | [] => [[c]]
      | seg :: rest => (c :: seg) :: rest

/-- The trailing path segment of an identifier (`uri.split('/').pop()`). -/
def trailingSegment (uri : String) : String :=
  String.mk ((splitSegs uri.data).getLastD [])

/-- JS `hay.includes(needle)`. -/
def containsStr (hay needle : String) : Bool :=
  hasInfixChars needle.data hay.data

/-- Registry keys of the contiguous slices of `base` having length `len`. -/
def rowKeys (base : List String) (len : Nat) : List (List String) :=
  (List.range (base.length - len + 1)).map (fun i => sliceL base i len)

/-- Registry keys of all slices of lengths `2 .. L+1`, in construction
order. -/
def allRowKeys (base : List String) (L : Nat) : List (List String) :=
  (List.range L).flatMap (fun k => rowKeys base (k + 2))

/-- The singleton wrapper keys of `base`, in construction order. -/
def wrapperKeys (base : List String) : List (List String) :=
  base.map (fun u => [u])

/-- Every base URI's singleton wrapper key is in the fragment registry. -/
def WrapPresent (s : EngineState) (base : List String) : Prop :=
  ∀ u ∈ base, (lookupL s.fragmentRegistry [u]).isSome

/-- Every contiguous slice of `base` with length `2 .. L` is a fragment
registry key. -/
def RowsPresent (s : EngineState) (base : List String) (L : Nat) : Prop :=
  ∀ len, 2 ≤ len → len ≤ L → ∀ i, i + len ≤ base.length →
    (lookupL s.fragmentRegistry (sliceL base i len)).isSome

/-- The topological height `getCanonicalFragment` computes for a new
fragment. -/
def fragHeight (s : EngineState) (content : List String)
    (cs : Option (String × String)) : Nat :=
  match cs with
  | some (l, r) => max (heightOfUri s l) (heightOfUri s r) + 1
  | none => (match content with | [] => 0 | c :: _ => heightOfUri s c) + 1

/-- The engine state after ingesting `["a", "b"]` into a fresh engine. -/
def stateAB : EngineState :=
  (ingestSequence initState [Value.str "a", Value.str "b"]).2

/-- The engine state after ingesting `["a", "b", "c"]` into a fresh engine. -/
def stateABC : EngineState :=
  (ingestSequence initState [Value.str "a", Value.str "b", Value.str "c"]).2

/-- `stateABC` after deleting both constituents of the top fragment
(`F(a,b)` and `F(b,c)`). -/
def stateDel : EngineState :=
  deleteNode (deleteNode stateABC (mintURI false 6)) (mintURI false 7)

/-! ### Association-list lookup lemmas -/

theorem lookupL_append_some {κ α : Type} [DecidableEq κ] {l m : List (κ × α)}
    {k : κ} {v : α} (h : lookupL l k = some v) : lookupL (l ++ m) k = some v := by
  induction l with
  | nil => simp [lookupL] at h
  | cons e t ih =>
    by_cases he : e.1 = k
    · simpa [lookupL, he] using h
    · simp only [lookupL, he, if_neg, List.cons_append] at h ⊢
      simp [he] at h ⊢
      exact ih h

theorem lookupL_append_none {κ α : Type} [DecidableEq κ] {l : List (κ × α)}
    (m : List (κ × α)) {k : κ} (h : lookupL l k = none) :
    lookupL (l ++ m) k = lookupL m k := by
  induction l with
  | nil => simp [lookupL]
  | cons e t ih =>
    by_cases he : e.1 = k
    · simp [lookupL, he] at h
    · simp only [lookupL, he, List.cons_append, if_neg] at h ⊢
      simp [he] at h ⊢
      exact ih h

theorem lookupL_eq_none_iff {κ α : Type} [DecidableEq κ] {l : List (κ × α)}
    {k : κ} : lookupL l k = none ↔ ∀ e ∈ l, e.1 ≠ k := by
  induction l with
  | nil => simp [lookupL]
  | cons e t ih =>
    by_cases he : e.1 = k
    · simp [lookupL, he]
    · simp [lookupL, he, ih]

theorem lookupL_mem {κ α : Type} [DecidableEq κ] {l : List (κ × α)}
    {k : κ} {v : α} (h : lookupL l k = some v) : (k, v) ∈ l := by
  induction l with
  | nil => simp [lookupL] at h
  | cons e t ih =>
    by_cases he : e.1 = k
    · simp only [lookupL, he, if_pos] at h
      obtain rfl : e.2 = v := Option.some.inj h
      subst he
      simp
    · simp only [lookupL, he, if_false, ite_false] at h
      exact List.mem_cons_of_mem _ (ih h)

theorem lookupL_isSome_of_mem {κ α : Type} [DecidableEq κ] {l : List (κ × α)}
    {k : κ} {v : α} (h : (k, v) ∈ l) : ∃ w, lookupL l k = some w := by
  induction l with
  | nil => simp at h
  | cons e t ih =>
    by_cases he : e.1 = k
    · exact ⟨e.2, by simp [lookupL, he]⟩
    · rcases List.mem_cons.mp h with h1 | h1
      · exact absurd (congrArg Prod.fst h1.symm) he
      · rcases ih h1 with ⟨w, hw⟩
        exact ⟨w, by simp [lookupL, he, hw]⟩

theorem lookupL_filter_keep {κ α : Type} [DecidableEq κ] {l : List (κ × α)}
    {k : κ} {p : κ × α → Bool} (h : ∀ e ∈ l, e.1 = k → p e = true) :
    lookupL (l.filter p) k = lookupL l k := by
  induction l with
  | nil => simp
  | cons e t ih =>
    by_cases he : e.1 = k
    · rw [List.filter_cons, if_pos (h e (by simp) he)]
      simp [lookupL, he]
    · rw [List.filter_cons]
      have ht : lookupL (t.filter p) k = lookupL t k :=
        ih (fun x hx => h x (List.mem_cons_of_mem _ hx))
      by_cases hp : p e = true
      · simp [hp, lookupL, he, ht]
      · simp [hp, lookupL, he, ht]

theorem lookupL_filter_none {κ α : Type} [DecidableEq κ] {l : List (κ × α)}
    {k : κ} {p : κ × α → Bool} (h : ∀ e ∈ l, p e = true → e.1 ≠ k) :
    lookupL (l.filter p) k = none := by
  rw [lookupL_eq_none_iff]
  intro e he
  rw [List.mem_filter] at he
  exact h e he.1 he.2

/-! ### Mint freshness -/

theorem mintSuffix_length (n : Nat) : (mintSuffix n).length = n + 1 := by
  simp [mintSuffix, String.length]

theorem mintURI_length (b : Bool) (n : Nat) :
    (mintURI b n).length = (if b then 28 else 32) + (n + 1) := by
  cases b <;> simp [mintURI, String.length_append, mintSuffix_length] <;> rfl

theorem mintURI_inj {b b' : Bool} {i j : Nat} (h : mintURI b i = mintURI b' j) :
    b = b' ∧ i = j := by
  cases b <;> cases b'
  · have hlen := congrArg String.length h
    rw [mintURI_length, mintURI_length] at hlen
    refine ⟨rfl, ?_⟩
    omega
  · exfalso
    have hdata := congrArg String.data h
    rw [mintURI, mintURI, if_neg (by decide), if_pos rfl,
      String.data_append, String.data_append] at hdata
    have h22 : ("http://localhost:3000/fragments/".data ++ (mintSuffix i).data)[22]? =
        ("http://localhost:3000/atoms/".data ++ (mintSuffix j).data)[22]? := by
      rw [hdata]
    rw [List.getElem?_append_left (by decide),
      List.getElem?_append_left (by decide)] at h22
    have hl : ("http://localhost:3000/fragments/".data)[22]? = some 'f' := by decide
    have hr : ("http://localhost:3000/atoms/".data)[22]? = some 'a' := by decide
    rw [hl, hr] at h22
    exact absurd (Option.some.inj h22) (by decide)
  · exfalso
    have hdata := congrArg String.data h
    rw [mintURI, mintURI, if_pos rfl, if_neg (by decide),
      String.data_append, String.data_append] at hdata
    have h22 : ("http://localhost:3000/atoms/".data ++ (mintSuffix i).data)[22]? =
        ("http://localhost:3000/fragments/".data ++ (mintSuffix j).data)[22]? := by
      rw [hdata]
    rw [List.getElem?_append_left (by decide),
      List.getElem?_append_left (by decide)] at h22
    have hl : ("http://localhost:3000/atoms/".data)[22]? = some 'a' := by decide
    have hr : ("http://localhost:3000/fragments/".data)[22]? = some 'f' := by decide
    rw [hl, hr] at h22
    exact absurd (Option.some.inj h22) (by decide)
  · have hlen := congrArg String.length h
    rw [mintURI_length, mintURI_length] at hlen
    refine ⟨rfl, ?_⟩
    omega

theorem mintURI_ne_of_lt {b b' : Bool} {i c : Nat} (h : i < c) :
    mintURI b i ≠ mintURI b' c := fun he => absurd (mintURI_inj he).2 (by omega)

theorem refOK_mono {c c' : Nat} (h : c ≤ c') {r : String} (hr : refOK c r) :
    refOK c' r := fun b i he => lt_of_lt_of_le (hr b i he) h

theorem refOK_of_short {c : Nat} {r : String} (h : r.length < 29) : refOK c r := by
  intro b i he
  rw [he, mintURI_length] at h
  cases b
  · simp only [Bool.false_eq_true, if_false] at h
    omega
  · simp only [if_true] at h
    omega

/-! ### Operation-effect lemmas -/

theorem lookupL_singleton {κ α : Type} [DecidableEq κ] (k : κ) (v : α) :
    lookupL [(k, v)] k = some v := by simp [lookupL]

theorem lookupL_append_self {κ α : Type} [DecidableEq κ] {l : List (κ × α)}
    {k : κ} (v : α) (h : lookupL l k = none) :
    lookupL (l ++ [(k, v)]) k = some v := by
  rw [lookupL_append_none _ h, lookupL_singleton]

theorem canonAtom_hit {s : EngineState} {v : Value} {u : String}
    (h : lookupL s.atomRegistry v.jsString = some u) :
    getCanonicalAtom s v = (u, s) := by
  simp [getCanonicalAtom, h]

theorem canonAtom_new {s : EngineState} {v : Value}
    (h : lookupL s.atomRegistry v.jsString = none) :
    getCanonicalAtom s v = (mintURI true s.counter,
      { s with
        counter := s.counter + 1,
        nodeRepository := s.nodeRepository ++
          [(mintURI true s.counter, .atom (mintURI true s.counter) v)],
        atomRegistry := s.atomRegistry ++ [(v.jsString, mintURI true s.counter)],
        notifications := s.notifications + 1 }) := by
  simp [getCanonicalAtom, h]

theorem canonFrag_hit {s : EngineState} {c : List String}
    {cs : Option (String × String)} {u : String}
    (h : lookupL s.fragmentRegistry c = some u) :
    getCanonicalFragment s c cs = (u, s) := by
  simp [getCanonicalFragment, h]

theorem canonFrag_new {s : EngineState} {c : List String}
    {cs : Option (String × String)} (h : lookupL s.fragmentRegistry c = none) :
    getCanonicalFragment s c cs = (mintURI false s.counter,
      { s with
        counter := s.counter + 1,
        nodeRepository := s.nodeRepository ++
          [(mintURI false s.counter,
            .fragment (mintURI false s.counter) c.length (fragHeight s c cs) c cs)],
        fragmentRegistry := s.fragmentRegistry ++ [(c, mintURI false s.counter)] }) := by
  cases cs with
  | none => simp [getCanonicalFragment, h, fragHeight]
  | some p => cases p with
    | mk a b => simp [getCanonicalFragment, h, fragHeight]

theorem canonAtom_lookup_post (s : EngineState) (v : Value) :
    lookupL (getCanonicalAtom s v).2.atomRegistry v.jsString =
      some (getCanonicalAtom s v).1 := by
  cases hm : lookupL s.atomRegistry v.jsString with
  | some u => rw [canonAtom_hit hm]; exact hm
  | none => rw [canonAtom_new hm]; exact lookupL_append_self _ hm

theorem canonFrag_lookup_post (s : EngineState) (c : List String)
    (cs : Option (String × String)) :
    lookupL (getCanonicalFragment s c cs).2.fragmentRegistry c =
      some (getCanonicalFragment s c cs).1 := by
  cases hm : lookupL s.fragmentRegistry c with
  | some u => rw [canonFrag_hit hm]; exact hm
  | none => rw [canonFrag_new hm]; exact lookupL_append_self _ hm

/-! ### Monotonicity -/

theorem Mono.rfl (s : EngineState) : Mono s s :=
  ⟨fun _ _ h => h, fun _ _ h => h, le_refl _⟩

theorem mono_trans {s t u : EngineState} (h1 : Mono s t) (h2 : Mono t u) :
    Mono s u :=
  ⟨fun k v h => h2.atomReg k v (h1.atomReg k v h),
   fun k v h => h2.fragReg k v (h1.fragReg k v h),
   le_trans h1.counterLe h2.counterLe⟩

theorem mono_notify (s : EngineState) : Mono s (notify s) :=
  ⟨fun _ _ h => h, fun _ _ h => h, le_refl _⟩

theorem mono_canonAtom (s : EngineState) (v : Value) :
    Mono s (getCanonicalAtom s v).2 := by
  cases hm : lookupL s.atomRegistry v.jsString with
  | some u => rw [canonAtom_hit hm]; exact Mono.rfl s
  | none =>
    rw [canonAtom_new hm]
    exact ⟨fun k w h => lookupL_append_some h, fun _ _ h => h, Nat.le_succ _⟩

theorem mono_canonFrag (s : EngineState) (c : List String)
    (cs : Option (String × String)) : Mono s (getCanonicalFragment s c cs).2 := by
  cases hm : lookupL s.fragmentRegistry c with
  | some u => rw [canonFrag_hit hm]; exact Mono.rfl s
  | none =>
    rw [canonFrag_new hm]
    exact ⟨fun _ _ h => h, fun k w h => lookupL_append_some h, Nat.le_succ _⟩

theorem mono_normalize (items : List Value) :
    ∀ s : EngineState, Mono s (normalizeItems s items).2 := by
  induction items with
  | nil => intro s; exact Mono.rfl s
  | cons it rest ih =>
    intro s
    show Mono s (normalizeItems s (it :: rest)).2
    rw [normalizeItems]
    by_cases hu : isURIString it.jsString
    · simpa [hu] using ih s
    · simp only [hu, if_false, ite_false]
      exact mono_trans (mono_canonAtom s it) (ih _)

theorem mono_wrappers (base : List String) :
    ∀ s : EngineState, Mono s (buildWrappers s base).2 := by
  induction base with
  | nil => intro s; exact Mono.rfl s
  | cons u rest ih =>
    intro s
    rw [buildWrappers]
    exact mono_trans (mono_canonFrag s [u] none) (ih _)

theorem mono_ingestStep (N : Nat) (base : List String) (len : Nat)
    (acc : String × EngineState) (i : Nat) :
    Mono acc.2 (ingestStep N base len acc i).2 := by
  rw [ingestStep]
  cases hL : lookupL acc.2.fragmentRegistry (sliceL base i (len - 1)) with
  | none => exact Mono.rfl _
  | some lu =>
    cases hR : lookupL acc.2.fragmentRegistry (sliceL base (i + 1) (len - 1)) with
    | none => exact Mono.rfl _
    | some ru => exact mono_canonFrag _ _ _

theorem mono_foldl {α : Type} {f : String × EngineState → α → String × EngineState}
    (hf : ∀ b a, Mono b.2 (f b a).2) (l : List α) :
    ∀ acc, Mono acc.2 (l.foldl f acc).2 := by
  induction l with
  | nil => intro acc; exact Mono.rfl _
  | cons a t ih =>
    intro acc
    exact mono_trans (hf acc a) (ih (f acc a))

theorem mono_ingestLoop (base : List String) (N : Nat) (acc : String × EngineState) :
    Mono acc.2 (ingestLoop base N acc).2 := by
  rw [ingestLoop]
  exact mono_foldl
    (fun b len => mono_foldl (fun b2 i => mono_ingestStep N base len b2 i) _ b) _ acc

theorem mono_ingest (s : EngineState) (items : List Value) :
    Mono s (ingestSequence s items).2 := by
  simp only [ingestSequence]
  split
  · exact Mono.rfl s
  · split
    · exact mono_trans (mono_normalize items s)
        (mono_trans (mono_wrappers (normalizeItems s items).1 (normalizeItems s items).2)
          (mono_notify _))
    · refine mono_trans (mono_normalize items s)
        (mono_trans (mono_wrappers (normalizeItems s items).1 (normalizeItems s items).2)
          (mono_trans ?_ (mono_notify _)))
      exact mono_ingestLoop (normalizeItems s items).1 (normalizeItems s items).1.length
        ((buildWrappers (normalizeItems s items).2 (normalizeItems s items).1).1.headD "",
         (buildWrappers (normalizeItems s items).2 (normalizeItems s items).1).2)

/-! ### Claim C4: empty-sequence error -/

theorem ingest_cons_some (s : EngineState) (it : Value) (rest : List Value) :
    ∃ u, (ingestSequence s (it :: rest)).1 = some u := by
  simp only [ingestSequence, List.isEmpty_cons, Bool.false_eq_true, if_false, ite_false]
  split
  · exact ⟨_, rfl⟩
  · exact ⟨_, rfl⟩

/-- C4: `ingestSequence` fails exactly on the empty item list; on that path
the state (repository, registries and notification tally alike) is returned
untouched, and every non-empty input — unresolved foreign references
included — produces an identifier without raising. -/
theorem C4_empty_sequence_error (s : EngineState) (items : List Value) :
    ((ingestSequence s items).1 = none ↔ items = []) ∧
    (items = [] → ingestSequence s items = (none, s)) := by
  cases items with
  | nil => exact ⟨⟨fun _ => rfl, fun _ => rfl⟩, fun _ => rfl⟩
  | cons it rest =>
    obtain ⟨u, hu⟩ := ingest_cons_some s it rest
    refine ⟨⟨fun h => ?_, fun h => by cases h⟩, fun h => by cases h⟩
    rw [hu] at h
    cases h

theorem C4_empty_sequence_error_witness :
    ingestSequence initState [] = (none, initState) ∧
    ¬(ingestSequence initState [Value.str "did:ex:ghost"]).1 = none :=
  ⟨(C4_empty_sequence_error initState []).2 rfl,
   fun h => by simpa using (C4_empty_sequence_error initState [Value.str "did:ex:ghost"]).1.mp h⟩

/-! ### Claim C6: resolver placeholder for unknown ids -/

/-- C6 counterexample: the placeholder for an unknown identifier is the
constant `"<?>"`; it does not reference the identifier's trailing path
segment (`"zzz"` here), refuting the claim as stated. -/
theorem C6_placeholder_counterexample :
    resolveContentString initState 1 "http://h/atoms/zzz" = some "<?>" ∧
    trailingSegment "http://h/atoms/zzz" = "zzz" ∧
    containsStr "<?>" "zzz" = false := by
  refine ⟨?_, by decide, by decide⟩
  simp [resolveContentString, getNode, initState, lookupL]

/-- C6 amended: for every identifier that does not resolve to a repository
node, `resolveContentString` raises no error and returns the constant
placeholder `"<?>"` (which references no part of the identifier). -/
theorem C6_unknown_id_placeholder (s : EngineState) (uri : String) (f : Nat)
    (h : getNode s uri = none) :
    resolveContentString s (f + 1) uri = some "<?>" := by
  simp [resolveContentString, h]

theorem C6_unknown_id_placeholder_witness :
    resolveContentString initState 5 "http://h/atoms/zzz" = some "<?>" :=
  C6_unknown_id_placeholder initState "http://h/atoms/zzz" 4 rfl

/-! ### Well-formedness: freshness helpers -/

theorem key_not_mem_of_lookup_none {κ α : Type} [DecidableEq κ]
    {l : List (κ × α)} {k : κ} (h : lookupL l k = none) :
    k ∉ l.map Prod.fst := by
  intro hk
  rcases List.mem_map.mp hk with ⟨e, he, hek⟩
  exact (lookupL_eq_none_iff.mp h e he) hek

theorem nodup_concat {α : Type} {l : List α} {a : α} (h : l.Nodup)
    (ha : a ∉ l) : (l ++ [a]).Nodup := by
  simp [List.nodup_append, h, ha]

theorem wf_fresh_repo {s : EngineState} (hs : WF s) (b : Bool) :
    lookupL s.nodeRepository (mintURI b s.counter) = none := by
  rw [lookupL_eq_none_iff]
  intro e he
  rcases (hs.repoMinted e he).1 with ⟨b', i, hei, hic⟩
  rw [hei]
  exact mintURI_ne_of_lt hic

theorem wf_fresh_atomVals {s : EngineState} (hs : WF s) (b : Bool) :
    mintURI b s.counter ∉ s.atomRegistry.map Prod.snd := by
  intro hmem
  rcases List.mem_map.mp hmem with ⟨e, he, hev⟩
  rcases hs.atomValsMinted e he with ⟨i, hei, hic⟩
  exact mintURI_ne_of_lt hic (by rw [← hei, hev])

theorem wf_fresh_fragVals {s : EngineState} (hs : WF s) (b : Bool) :
    mintURI b s.counter ∉ s.fragmentRegistry.map Prod.snd := by
  intro hmem
  rcases List.mem_map.mp hmem with ⟨e, he, hev⟩
  rcases hs.fragValsMinted e he with ⟨i, hei, hic⟩
  exact mintURI_ne_of_lt hic (by rw [← hei, hev])

theorem wf_fresh_repoKeys {s : EngineState} (hs : WF s) (b : Bool) :
    mintURI b s.counter ∉ s.nodeRepository.map Prod.fst := by
  intro hmem
  rcases List.mem_map.mp hmem with ⟨e, he, hek⟩
  rcases (hs.repoMinted e he).1 with ⟨b', i, hei, hic⟩
  exact mintURI_ne_of_lt hic (by rw [← hei, hek])

theorem wf_canonAtom {s : EngineState} (hs : WF s) (v : Value) :
    WF (getCanonicalAtom s v).2 := by
  cases hm : lookupL s.atomRegistry v.jsString with
  | some u => rw [canonAtom_hit hm]; exact hs
  | none =>
    rw [canonAtom_new hm]
    refine ⟨?_, ?_, ?_, ?_, ?_, ?_, ?_, ?_, ?_, ?_, ?_, ?_, ?_⟩
    · intro e he
      rcases List.mem_append.mp he with h | h
      · rcases hs.repoMinted e h with ⟨⟨b, i, hei, hic⟩, hnid⟩
        exact ⟨⟨b, i, hei, Nat.lt_succ_of_lt hic⟩, hnid⟩
      · rcases List.mem_singleton.mp h with rfl
        exact ⟨⟨true, s.counter, rfl, Nat.lt_succ_self _⟩, rfl⟩
    · show ((s.nodeRepository ++ [(mintURI true s.counter,
        NodeR.atom (mintURI true s.counter) v)]).map Prod.fst).Nodup
      rw [List.map_append]
      exact nodup_concat hs.repoKeysNodup (wf_fresh_repoKeys hs true)
    · show ((s.atomRegistry ++ [(v.jsString, mintURI true s.counter)]).map Prod.fst).Nodup
      rw [List.map_append]
      exact nodup_concat hs.atomKeysNodup (key_not_mem_of_lookup_none hm)
    · exact hs.fragKeysNodup
    · show ((s.atomRegistry ++ [(v.jsString, mintURI true s.counter)]).map Prod.snd).Nodup
      rw [List.map_append]
      exact nodup_concat hs.atomValsNodup (wf_fresh_atomVals hs true)
    · exact hs.fragValsNodup
    · intro e he
      rcases List.mem_append.mp he with h | h
      · rcases hs.atomValsMinted e h with ⟨i, hei, hic⟩
        exact ⟨i, hei, Nat.lt_succ_of_lt hic⟩
      · rcases List.mem_singleton.mp h with rfl
        exact ⟨s.counter, rfl, Nat.lt_succ_self _⟩
    · intro e he
      rcases hs.fragValsMinted e he with ⟨i, hei, hic⟩
      exact ⟨i, hei, Nat.lt_succ_of_lt hic⟩
    · intro e he
      rcases List.mem_append.mp he with h | h
      · rcases hs.atomRegNode e h with ⟨v0, hg, hjs⟩
        exact ⟨v0, lookupL_append_some hg, hjs⟩
      · rcases List.mem_singleton.mp h with rfl
        exact ⟨v, lookupL_append_self _ (wf_fresh_repo hs true), rfl⟩
    · intro e he
      rcases hs.fragRegNode e he with ⟨h0, cs0, hg⟩
      exact ⟨h0, cs0, lookupL_append_some hg⟩
    · intro e he v0 hev
      rcases List.mem_append.mp he with h | h
      · exact lookupL_append_some (hs.atomNodeReg e h v0 hev)
      · rcases List.mem_singleton.mp h with rfl
        obtain ⟨-, rfl⟩ := NodeR.atom.inj hev
        exact lookupL_append_self _ hm
    · intro e he lvl h0 c0 cs0 hev
      rcases List.mem_append.mp he with h | h
      · exact hs.fragNodeReg e h lvl h0 c0 cs0 hev
      · rcases List.mem_singleton.mp h with rfl
        cases hev
    · intro e he lvl h0 c0 a b hev
      rcases List.mem_append.mp he with h | h
      · rcases hs.constMinted e h lvl h0 c0 a b hev with ⟨⟨i, hai, hic⟩, ⟨j, hbj, hjc⟩⟩
        exact ⟨⟨i, hai, Nat.lt_succ_of_lt hic⟩, ⟨j, hbj, Nat.lt_succ_of_lt hjc⟩⟩
      · rcases List.mem_singleton.mp h with rfl
        cases hev

theorem wf_canonFrag {s : EngineState} (hs : WF s) (c : List String)
    (cs : Option (String × String))
    (hcs : ∀ a b, cs = some (a, b) →
      (∃ i, a = mintURI false i ∧ i < s.counter) ∧
        ∃ i, b = mintURI false i ∧ i < s.counter) :
    WF (getCanonicalFragment s c cs).2 := by
  cases hm : lookupL s.fragmentRegistry c with
  | some u => rw [canonFrag_hit hm]; exact hs
  | none =>
    rw [canonFrag_new hm]
    refine ⟨?_, ?_, ?_, ?_, ?_, ?_, ?_, ?_, ?_, ?_, ?_, ?_, ?_⟩
    · intro e he
      rcases List.mem_append.mp he with h | h
      · rcases hs.repoMinted e h with ⟨⟨b, i, hei, hic⟩, hnid⟩
        exact ⟨⟨b, i, hei, Nat.lt_succ_of_lt hic⟩, hnid⟩
      · rcases List.mem_singleton.mp h with rfl
        exact ⟨⟨false, s.counter, rfl, Nat.lt_succ_self _⟩, rfl⟩
    · show ((s.nodeRepository ++ [(mintURI false s.counter,
        NodeR.fragment (mintURI false s.counter) c.length (fragHeight s c cs) c cs)]).map
          Prod.fst).Nodup
      rw [List.map_append]
      exact nodup_concat hs.repoKeysNodup (wf_fresh_repoKeys hs false)
    · exact hs.atomKeysNodup
    · show ((s.fragmentRegistry ++ [(c, mintURI false s.counter)]).map Prod.fst).Nodup
      rw [List.map_append]
      exact nodup_concat hs.fragKeysNodup (key_not_mem_of_lookup_none hm)
    · exact hs.atomValsNodup
    · show ((s.fragmentRegistry ++ [(c, mintURI false s.counter)]).map Prod.snd).Nodup
      rw [List.map_append]
      exact nodup_concat hs.fragValsNodup (wf_fresh_fragVals hs false)
    · intro e he
      rcases hs.atomValsMinted e he with ⟨i, hei, hic⟩
      exact ⟨i, hei, Nat.lt_succ_of_lt hic⟩
    · intro e he
      rcases List.mem_append.mp he with h | h
      · rcases hs.fragValsMinted e h with ⟨i, hei, hic⟩
        exact ⟨i, hei, Nat.lt_succ_of_lt hic⟩
      · rcases List.mem_singleton.mp h with rfl
        exact ⟨s.counter, rfl, Nat.lt_succ_self _⟩
    · intro e he
      rcases hs.atomRegNode e he with ⟨v0, hg, hjs⟩
      exact ⟨v0, lookupL_append_some hg, hjs⟩
    · intro e he
      rcases List.mem_append.mp he with h | h
      · rcases hs.fragRegNode e h with ⟨h0, cs0, hg⟩
        exact ⟨h0, cs0, lookupL_append_some hg⟩
      · rcases List.mem_singleton.mp h with rfl
        exact ⟨fragHeight s c cs, cs, lookupL_append_self _ (wf_fresh_repo hs false)⟩
    · intro e he v0 hev
      rcases List.mem_append.mp he with h | h
      · exact hs.atomNodeReg e h v0 hev
      · rcases List.mem_singleton.mp h with rfl
        cases hev
    · intro e he lvl h0 c0 cs0 hev
      rcases List.mem_append.mp he with h | h
      · exact lookupL_append_some (hs.fragNodeReg e h lvl h0 c0 cs0 hev)
      · rcases List.mem_singleton.mp h with rfl
        obtain ⟨-, -, -, rfl, -⟩ := NodeR.fragment.inj hev
        exact lookupL_append_self _ hm
    · intro e he lvl h0 c0 a b hev
      rcases List.mem_append.mp he with h | h
      · rcases hs.constMinted e h lvl h0 c0 a b hev with ⟨⟨i, hai, hic⟩, ⟨j, hbj, hjc⟩⟩
        exact ⟨⟨i, hai, Nat.lt_succ_of_lt hic⟩, ⟨j, hbj, Nat.lt_succ_of_lt hjc⟩⟩
      · rcases List.mem_singleton.mp h with rfl
        obtain ⟨-, -, -, -, hcs0⟩ := NodeR.fragment.inj hev
        rcases hcs (a := a) (b := b) hcs0 with ⟨⟨i, hai, hic⟩, ⟨j, hbj, hjc⟩⟩
        exact ⟨⟨i, hai, Nat.lt_succ_of_lt hic⟩, ⟨j, hbj, Nat.lt_succ_of_lt hjc⟩⟩

theorem lookupL_unique {κ α : Type} [DecidableEq κ] {l : List (κ × α)}
    (hnd : (l.map Prod.fst).Nodup) {k : κ} {v : α} (h : lookupL l k = some v) :
    ∀ e ∈ l, e.1 = k → e = (k, v) := by
  induction l with
  | nil => intro e he; simp at he
  | cons hd t ih =>
    intro e he hek
    rcases List.mem_cons.mp he with rfl | het
    · simp only [lookupL, hek, if_pos] at h
      obtain rfl := Option.some.inj h
      rw [← hek]
    · by_cases hhd : hd.1 = k
      · exfalso
        have : k ∈ t.map Prod.fst := List.mem_map.mpr ⟨e, het, hek⟩
        rw [List.map_cons] at hnd
        exact (List.nodup_cons.mp hnd).1 (hhd ▸ this)
      · simp only [lookupL, hhd, if_neg, not_false_iff, ite_false] at h
        rw [List.map_cons] at hnd
        exact ih (List.nodup_cons.mp hnd).2 h e het hek

theorem wf_delete {s : EngineState} (hs : WF s) (uri : String) :
    WF (deleteNode s uri) := by
  have hsubrepo : ∀ e ∈ (deleteNode s uri).nodeRepository, e ∈ s.nodeRepository := by
    intro e he
    exact (List.mem_filter.mp he).1
  have hsubatom : ∀ e ∈ (deleteNode s uri).atomRegistry, e ∈ s.atomRegistry := by
    intro e he
    exact (List.mem_filter.mp he).1
  have hsubfrag : ∀ e ∈ (deleteNode s uri).fragmentRegistry, e ∈ s.fragmentRegistry := by
    intro e he
    exact (List.mem_filter.mp he).1
  have hkeep : ∀ k, k ≠ uri →
      lookupL (deleteNode s uri).nodeRepository k = lookupL s.nodeRepository k := by
    intro k hk
    exact lookupL_filter_keep (fun e2 _ h2 => by
      simp only [Bool.not_eq_true', beq_eq_false_iff_ne, ne_eq]
      rw [h2]
      exact hk)
  refine ⟨?_, ?_, ?_, ?_, ?_, ?_, ?_, ?_, ?_, ?_, ?_, ?_, ?_⟩
  · intro e he
    exact hs.repoMinted e (hsubrepo e he)
  · exact hs.repoKeysNodup.sublist ((List.filter_sublist _).map Prod.fst)
  · exact hs.atomKeysNodup.sublist ((List.filter_sublist _).map Prod.fst)
  · exact hs.fragKeysNodup.sublist ((List.filter_sublist _).map Prod.fst)
  · exact hs.atomValsNodup.sublist ((List.filter_sublist _).map Prod.snd)
  · exact hs.fragValsNodup.sublist ((List.filter_sublist _).map Prod.snd)
  · intro e he
    exact hs.atomValsMinted e (hsubatom e he)
  · intro e he
    exact hs.fragValsMinted e (hsubfrag e he)
  · intro e he
    have hne2 : e.2 ≠ uri := by
      have := (List.mem_filter.mp he).2
      simpa [beq_eq_false_iff_ne] using this
    rcases hs.atomRegNode e (hsubatom e he) with ⟨v0, hg, hjs⟩
    refine ⟨v0, ?_, hjs⟩
    show lookupL (deleteNode s uri).nodeRepository e.2 = _
    rw [hkeep e.2 hne2]
    exact hg
  · intro e he
    have hne2 : e.2 ≠ uri := by
      have := (List.mem_filter.mp he).2
      simpa [beq_eq_false_iff_ne] using this
    rcases hs.fragRegNode e (hsubfrag e he) with ⟨h0, cs0, hg⟩
    refine ⟨h0, cs0, ?_⟩
    show lookupL (deleteNode s uri).nodeRepository e.2 = _
    rw [hkeep e.2 hne2]
    exact hg
  · intro e he v0 hev
    have hmem := hsubrepo e he
    have hne1 : e.1 ≠ uri := by
      have := (List.mem_filter.mp he).2
      simpa [beq_eq_false_iff_ne] using this
    have hlook := hs.atomNodeReg e hmem v0 hev
    have hk2 : lookupL (s.atomRegistry.filter (fun en => !(en.2 == uri)))
        (Value.jsString v0) = lookupL s.atomRegistry (Value.jsString v0) := by
      refine lookupL_filter_keep (fun en hen hk => ?_)
      have heq := lookupL_unique hs.atomKeysNodup hlook en hen hk
      rw [heq]
      simp only [Bool.not_eq_true', beq_eq_false_iff_ne, ne_eq]
      exact hne1
    show lookupL (s.atomRegistry.filter (fun en => !(en.2 == uri)))
      (Value.jsString v0) = some e.1
    rw [hk2]
    exact hlook
  · intro e he lvl h0 c0 cs0 hev
    have hmem := hsubrepo e he
    have hne1 : e.1 ≠ uri := by
      have := (List.mem_filter.mp he).2
      simpa [beq_eq_false_iff_ne] using this
    have hlook := hs.fragNodeReg e hmem lvl h0 c0 cs0 hev
    have hk2 : lookupL (s.fragmentRegistry.filter (fun en => !(en.2 == uri)))
        c0 = lookupL s.fragmentRegistry c0 := by
      refine lookupL_filter_keep (fun en hen hk => ?_)
      have heq := lookupL_unique hs.fragKeysNodup hlook en hen hk
      rw [heq]
      simp only [Bool.not_eq_true', beq_eq_false_iff_ne, ne_eq]
      exact hne1
    show lookupL (s.fragmentRegistry.filter (fun en => !(en.2 == uri)))
      c0 = some e.1
    rw [hk2]
    exact hlook
  · intro e he lvl h0 c0 a b hev
    exact hs.constMinted e (hsubrepo e he) lvl h0 c0 a b hev

theorem wf_initState : WF initState := by
  refine ⟨?_, ?_, ?_, ?_, ?_, ?_, ?_, ?_, ?_, ?_, ?_, ?_, ?_⟩ <;>
    simp [initState]

theorem wf_reset {s : EngineState} (_ : WF s) : WF (reset s) := by
  refine ⟨?_, ?_, ?_, ?_, ?_, ?_, ?_, ?_, ?_, ?_, ?_, ?_, ?_⟩ <;>
    simp [reset]

theorem foldl_pres {α β : Type} {P : β → Prop} {f : β → α → β}
    (hf : ∀ b a, P b → P (f b a)) :
    ∀ (l : List α) (acc : β), P acc → P (l.foldl f acc) := by
  intro l
  induction l with
  | nil => intro acc h; exact h
  | cons a t ih => intro acc h; exact ih (f acc a) (hf acc a h)

theorem wf_normalize (items : List Value) :
    ∀ s : EngineState, WF s → WF (normalizeItems s items).2 := by
  induction items with
  | nil => intro s hs; exact hs
  | cons it rest ih =>
    intro s hs
    rw [normalizeItems]
    by_cases hu : isURIString it.jsString
    · simpa [hu] using ih s hs
    · simp only [hu, if_false, ite_false]
      exact ih _ (wf_canonAtom hs it)

theorem wf_wrappers (base : List String) :
    ∀ s : EngineState, WF s → WF (buildWrappers s base).2 := by
  induction base with
  | nil => intro s hs; exact hs
  | cons u rest ih =>
    intro s hs
    rw [buildWrappers]
    exact ih _ (wf_canonFrag hs [u] none (fun a b h => by cases h))

theorem wf_ingestStep (N : Nat) (base : List String) (len : Nat)
    (acc : String × EngineState) (i : Nat) (hs : WF acc.2) :
    WF (ingestStep N base len acc i).2 := by
  rw [ingestStep]
  cases hL : lookupL acc.2.fragmentRegistry (sliceL base i (len - 1)) with
  | none => exact hs
  | some lu =>
    cases hR : lookupL acc.2.fragmentRegistry (sliceL base (i + 1) (len - 1)) with
    | none => exact hs
    | some ru =>
      refine wf_canonFrag hs _ _ (fun a b h => ?_)
      obtain ⟨rfl, rfl⟩ := Prod.mk.inj (Option.some.inj h)
      constructor
      · rcases hs.fragValsMinted _ (lookupL_mem hL) with ⟨i0, hi0, hic⟩
        exact ⟨i0, hi0, hic⟩
      · rcases hs.fragValsMinted _ (lookupL_mem hR) with ⟨i0, hi0, hic⟩
        exact ⟨i0, hi0, hic⟩

theorem wf_ingestLoop (base : List String) (N : Nat) (acc : String × EngineState)
    (hs : WF acc.2) : WF (ingestLoop base N acc).2 := by
  rw [ingestLoop]
  refine foldl_pres (P := fun b => WF b.2) (fun b len hb => ?_) _ acc hs
  exact foldl_pres (P := fun b2 => WF b2.2)
    (fun b2 i hb2 => wf_ingestStep N base len b2 i hb2) _ b hb

theorem wf_notify {s : EngineState} (hs : WF s) : WF (notify s) :=
  ⟨hs.repoMinted, hs.repoKeysNodup, hs.atomKeysNodup, hs.fragKeysNodup,
   hs.atomValsNodup, hs.fragValsNodup, hs.atomValsMinted, hs.fragValsMinted,
   hs.atomRegNode, hs.fragRegNode, hs.atomNodeReg, hs.fragNodeReg, hs.constMinted⟩

theorem wf_ingest {s : EngineState} (hs : WF s) (items : List Value) :
    WF (ingestSequence s items).2 := by
  simp only [ingestSequence]
  split
  · exact hs
  · split
    · exact wf_notify (wf_wrappers (normalizeItems s items).1 _ (wf_normalize items s hs))
    · exact wf_notify
        (wf_ingestLoop (normalizeItems s items).1 (normalizeItems s items).1.length
          ((buildWrappers (normalizeItems s items).2 (normalizeItems s items).1).1.headD "",
           (buildWrappers (normalizeItems s items).2 (normalizeItems s items).1).2)
          (wf_wrappers (normalizeItems s items).1 _ (wf_normalize items s hs)))

theorem reachable_wf {s : EngineState} (h : Reachable s) : WF s := by
  induction h with
  | init => exact wf_initState
  | canon s v _ ih => exact wf_canonAtom ih v
  | ingest s items _ ih => exact wf_ingest ih items
  | del s uri _ ih => exact wf_delete ih uri
  | resetStep s _ ih => exact wf_reset ih

/-! ### Claim C9: registry/repository invariant R1 -/

theorem filter_snd_length_one {A B : Type} [DecidableEq B] {l : List (A × B)}
    (hnd : (l.map Prod.snd).Nodup) {e0 : A × B} (he0 : e0 ∈ l) :
    (l.filter (fun en => en.2 == e0.2)).length = 1 := by
  induction l with
  | nil => simp at he0
  | cons hd t ih =>
    rw [List.map_cons, List.nodup_cons] at hnd
    rcases List.mem_cons.mp he0 with heq | het
    · rw [heq]
      rw [List.filter_cons, if_pos (by simp)]
      have ht0 : t.filter (fun en => en.2 == hd.2) = [] := by
        apply List.filter_eq_nil_iff.mpr
        intro en hen hbeq
        exact hnd.1 ((beq_iff_eq.mp hbeq) ▸ List.mem_map.mpr ⟨en, hen, rfl⟩)
      rw [ht0]
      rfl
    · have hne : (hd.2 == e0.2) = false := by
        refine beq_eq_false_iff_ne.mpr ?_
        intro h
        exact hnd.1 (h ▸ List.mem_map.mpr ⟨e0, het, rfl⟩)
      rw [List.filter_cons, hne]
      simp only [Bool.false_eq_true, if_false, ite_false]
      exact ih hnd.2 het

/-- C9: in every state reachable by the public operations, every atom node
has exactly one atom-registry entry mapping to its id, every fragment node
has exactly one fragment-registry entry mapping to its id, and every
registry entry of either registry maps to a node present in the
repository. -/
theorem C9_registry_repository_invariant (s : EngineState) (hr : Reachable s) :
    (∀ e ∈ s.nodeRepository, ∀ v, e.2 = NodeR.atom e.1 v →
      (s.atomRegistry.filter (fun en => en.2 == e.1)).length = 1) ∧
    (∀ e ∈ s.nodeRepository, ∀ lvl hh c cs, e.2 = NodeR.fragment e.1 lvl hh c cs →
      (s.fragmentRegistry.filter (fun en => en.2 == e.1)).length = 1) ∧
    (∀ en ∈ s.atomRegistry, ∃ n, getNode s en.2 = some n) ∧
    (∀ en ∈ s.fragmentRegistry, ∃ n, getNode s en.2 = some n) := by
  have hs := reachable_wf hr
  refine ⟨?_, ?_, ?_, ?_⟩
  · intro e he v hev
    have hlook := hs.atomNodeReg e he v hev
    have hmem : (Value.jsString v, e.1) ∈ s.atomRegistry := lookupL_mem hlook
    exact filter_snd_length_one hs.atomValsNodup hmem
  · intro e he lvl hh c cs hev
    have hlook := hs.fragNodeReg e he lvl hh c cs hev
    have hmem : (c, e.1) ∈ s.fragmentRegistry := lookupL_mem hlook
    exact filter_snd_length_one hs.fragValsNodup hmem
  · intro en hen
    rcases hs.atomRegNode en hen with ⟨v0, hg, _⟩
    exact ⟨_, hg⟩
  · intro en hen
    rcases hs.fragRegNode en hen with ⟨h0, cs0, hg⟩
    exact ⟨_, hg⟩

theorem C9_registry_repository_invariant_witness :
    (∀ e ∈ stateAB.nodeRepository, ∀ v, e.2 = NodeR.atom e.1 v →
      (stateAB.atomRegistry.filter (fun en => en.2 == e.1)).length = 1) ∧
    (∀ e ∈ stateAB.nodeRepository, ∀ lvl hh c cs,
      e.2 = NodeR.fragment e.1 lvl hh c cs →
      (stateAB.fragmentRegistry.filter (fun en => en.2 == e.1)).length = 1) ∧
    (∀ en ∈ stateAB.atomRegistry, ∃ n, getNode stateAB en.2 = some n) ∧
    (∀ en ∈ stateAB.fragmentRegistry, ∃ n, getNode stateAB en.2 = some n) :=
  C9_registry_repository_invariant stateAB
    (Reachable.ingest initState [Value.str "a", Value.str "b"] Reachable.init)

/-! ### Claim C8: deleteNode -/

/-- C8: after `deleteNode(uri)` the node is gone, no registry entry of
either registry maps to `uri`, every other repository entry is untouched
(dangling references included), exactly one notification fires, and when the
id was not present the repository and registries are unchanged (the
notification still fires). -/
theorem C8_deleteNode_frame (s : EngineState) (hr : Reachable s) (uri : String) :
    getNode (deleteNode s uri) uri = none ∧
    (∀ en ∈ (deleteNode s uri).atomRegistry, en.2 ≠ uri) ∧
    (∀ en ∈ (deleteNode s uri).fragmentRegistry, en.2 ≠ uri) ∧
    (∀ u, u ≠ uri → getNode (deleteNode s uri) u = getNode s u) ∧
    (deleteNode s uri).notifications = s.notifications + 1 ∧
    (getNode s uri = none →
      deleteNode s uri = { s with notifications := s.notifications + 1 }) := by
  have hs := reachable_wf hr
  refine ⟨?_, ?_, ?_, ?_, rfl, ?_⟩
  · exact lookupL_filter_none (fun e he hp => by
      simpa [beq_eq_false_iff_ne] using hp)
  · intro en hen
    have := (List.mem_filter.mp hen).2
    simpa [beq_eq_false_iff_ne] using this
  · intro en hen
    have := (List.mem_filter.mp hen).2
    simpa [beq_eq_false_iff_ne] using this
  · intro u hu
    exact lookupL_filter_keep (fun e2 _ h2 => by
      simp only [Bool.not_eq_true', beq_eq_false_iff_ne, ne_eq]
      rw [h2]
      exact hu)
  · intro hnone
    have h1 : s.nodeRepository.filter (fun e => !(e.1 == uri)) = s.nodeRepository := by
      apply List.filter_eq_self.mpr
      intro e he
      simp only [Bool.not_eq_eq_eq_not, Bool.not_true, beq_eq_false_iff_ne, ne_eq]
      intro hk
      exact absurd hnone (by
        rcases lookupL_isSome_of_mem (hk ▸ he : (uri, e.2) ∈ s.nodeRepository) with ⟨w, hw⟩
        rw [show getNode s uri = lookupL s.nodeRepository uri from rfl, hw]
        exact Option.some_ne_none w)
    have h2 : s.atomRegistry.filter (fun e => !(e.2 == uri)) = s.atomRegistry := by
      apply List.filter_eq_self.mpr
      intro e he
      simp only [Bool.not_eq_eq_eq_not, Bool.not_true, beq_eq_false_iff_ne, ne_eq]
      intro hk
      rcases hs.atomRegNode e he with ⟨v0, hg, _⟩
      rw [hk, hnone] at hg
      cases hg
    have h3 : s.fragmentRegistry.filter (fun e => !(e.2 == uri)) = s.fragmentRegistry := by
      apply List.filter_eq_self.mpr
      intro e he
      simp only [Bool.not_eq_eq_eq_not, Bool.not_true, beq_eq_false_iff_ne, ne_eq]
      intro hk
      rcases hs.fragRegNode e he with ⟨h0, cs0, hg⟩
      rw [hk, hnone] at hg
      cases hg
    show ({ s with
      nodeRepository := s.nodeRepository.filter (fun e => !(e.1 == uri)),
      atomRegistry := s.atomRegistry.filter (fun e => !(e.2 == uri)),
      fragmentRegistry := s.fragmentRegistry.filter (fun e => !(e.2 == uri)),
      notifications := s.notifications + 1 } : EngineState) =
      { s with notifications := s.notifications + 1 }
    rw [h1, h2, h3]

theorem C8_deleteNode_frame_witness :
    getNode (deleteNode stateAB (mintURI true 0)) (mintURI true 0) = none ∧
    (∀ en ∈ (deleteNode stateAB (mintURI true 0)).atomRegistry,
      en.2 ≠ mintURI true 0) ∧
    (∀ en ∈ (deleteNode stateAB (mintURI true 0)).fragmentRegistry,
      en.2 ≠ mintURI true 0) ∧
    (∀ u, u ≠ mintURI true 0 →
      getNode (deleteNode stateAB (mintURI true 0)) u = getNode stateAB u) ∧
    (deleteNode stateAB (mintURI true 0)).notifications =
      stateAB.notifications + 1 ∧
    (getNode stateAB (mintURI true 0) = none →
      deleteNode stateAB (mintURI true 0) =
        { stateAB with notifications := stateAB.notifications + 1 }) :=
  C8_deleteNode_frame stateAB
    (Reachable.ingest initState [Value.str "a", Value.str "b"] Reachable.init)
    (mintURI true 0)

/-! ### Claim C5: neighbor/parent consistency -/

theorem mintURI_ne_empty (b : Bool) (n : Nat) : mintURI b n ≠ "" := by
  intro h
  have hl := congrArg String.length h
  rw [mintURI_length] at hl
  cases b
  · simp only [Bool.false_eq_true, if_false] at hl
    simp at hl
  · simp only [if_true] at hl
    simp at hl

theorem demote_promote {s : EngineState} (hs : WF s) (R : String) :
    demoteToAtom s (promoteToStructural s R) = demoteToAtom s R := by
  unfold promoteToStructural
  cases hg : getNode s R with
  | none => rfl
  | some n =>
    cases n with
    | fragment i lvl hh cc cs => rfl
    | atom i v =>
      cases hw : getFragmentUri s [R] with
      | none => rfl
      | some w =>
        have hmem : ([R], w) ∈ s.fragmentRegistry := lookupL_mem hw
        rcases hs.fragRegNode _ hmem with ⟨h0, cs0, hgw⟩
        show demoteToAtom s w = demoteToAtom s R
        rw [demoteToAtom, demoteToAtom, hg, hgw]
        simp

/-- C5: whenever `findParentNode(L, R)` yields a parent `P`, the neighbor
scans are consistent with it: `findNeighbors(L, right)` contains the entry
`(demoted R, P)` and `findNeighbors(R, left)` contains `(demoted L, P)`. -/
theorem C5_neighbor_parent_consistency (s : EngineState) (hr : Reachable s)
    (L R P : String) (hp : findParentNode s L R = some P) :
    (demoteToAtom s R, P) ∈ findNeighbors s L Direction.right ∧
    (demoteToAtom s L, P) ∈ findNeighbors s R Direction.left := by
  have hs := reachable_wf hr
  simp only [findParentNode] at hp
  rcases Option.map_eq_some'.mp hp with ⟨e0, hfind, hP⟩
  have hpred := List.find?_some hfind
  have hmem := List.mem_of_find?_eq_some hfind
  simp only at hpred
  cases hnode : e0.2 with
  | atom i v => rw [hnode] at hpred; simp at hpred
  | fragment nid0 lvl hh cc cs =>
    cases cs with
    | none => rw [hnode] at hpred; simp at hpred
    | some ab =>
      rcases ab with ⟨a, b⟩
      rw [hnode] at hpred
      simp only [Bool.and_eq_true, beq_iff_eq] at hpred
      rcases hpred with ⟨ha, hb⟩
      have hnid : nid0 = e0.1 := by
        have h2 := (hs.repoMinted e0 hmem).2
        rw [hnode] at h2
        exact h2
      rw [hnid] at hnode
      rw [hnode] at hP
      simp only [NodeR.nid] at hP
      rcases hs.constMinted e0 hmem lvl hh cc a b hnode with ⟨⟨i1, hai, _⟩, ⟨j1, hbj, _⟩⟩
      have hane : a ≠ "" := by rw [hai]; exact mintURI_ne_empty false i1
      have hbne : b ≠ "" := by rw [hbj]; exact mintURI_ne_empty false j1
      constructor
      · rw [← demote_promote hs R, ← hb]
        simp only [findNeighbors]
        refine List.mem_filterMap.mpr ⟨e0, hmem, ?_⟩
        rw [hnode]
        simp only [ha, if_pos, hbne, ite_false, hP]
      · rw [← demote_promote hs L, ← ha]
        simp only [findNeighbors]
        refine List.mem_filterMap.mpr ⟨e0, hmem, ?_⟩
        rw [hnode]
        simp [← hb, hane, hP]

theorem C5_neighbor_parent_consistency_witness :
    (demoteToAtom stateAB (mintURI true 1), mintURI false 4) ∈
      findNeighbors stateAB (mintURI true 0) Direction.right ∧
    (demoteToAtom stateAB (mintURI true 0), mintURI false 4) ∈
      findNeighbors stateAB (mintURI true 1) Direction.left :=
  C5_neighbor_parent_consistency stateAB
    (Reachable.ingest initState [Value.str "a", Value.str "b"] Reachable.init)
    (mintURI true 0) (mintURI true 1) (mintURI false 4) (by decide)

/-! ### Claim C10: atom canonicalization keys on the string form -/

/-- C10: two values with equal JS string form share one canonical atom: the
second call returns the first call's identifier and mutates nothing, and the
stored node's `rdf:value` is the first caller's value. -/
theorem C10_atom_keying_by_string (s : EngineState) (hr : Reachable s)
    (v w : Value) (hvw : v.jsString = w.jsString)
    (hnew : lookupL s.atomRegistry v.jsString = none) :
    (getCanonicalAtom ((getCanonicalAtom s v).2) w).1 = (getCanonicalAtom s v).1 ∧
    (getCanonicalAtom ((getCanonicalAtom s v).2) w).2 = (getCanonicalAtom s v).2 ∧
    getNode (getCanonicalAtom s v).2 (getCanonicalAtom s v).1 =
      some (NodeR.atom (getCanonicalAtom s v).1 v) := by
  have hs := reachable_wf hr
  rw [canonAtom_new hnew]
  have hhit : lookupL (s.atomRegistry ++ [(v.jsString, mintURI true s.counter)])
      w.jsString = some (mintURI true s.counter) := by
    rw [← hvw]
    exact lookupL_append_self _ hnew
  refine ⟨?_, ?_, ?_⟩
  · rw [canonAtom_hit hhit]
  · rw [canonAtom_hit hhit]
  · exact lookupL_append_self _ (wf_fresh_repo hs true)

theorem C10_atom_keying_by_string_witness :
    (getCanonicalAtom ((getCanonicalAtom initState (Value.num 1)).2)
      (Value.str "1")).1 = (getCanonicalAtom initState (Value.num 1)).1 ∧
    (getCanonicalAtom ((getCanonicalAtom initState (Value.num 1)).2)
      (Value.str "1")).2 = (getCanonicalAtom initState (Value.num 1)).2 ∧
    getNode (getCanonicalAtom initState (Value.num 1)).2
        (getCanonicalAtom initState (Value.num 1)).1 =
      some (NodeR.atom (getCanonicalAtom initState (Value.num 1)).1
        (Value.num 1)) :=
  C10_atom_keying_by_string initState Reachable.init (Value.num 1)
    (Value.str "1") (by decide) (by decide)

/-! ### Claim C7: notification counting -/

/-- Balance between two states along an ingest: the notification tally and
the atom count grow by the same amount. -/
def Bal (s t : EngineState) : Prop :=
  ∃ k, countAtoms t = countAtoms s + k ∧ t.notifications = s.notifications + k

theorem bal_refl (s : EngineState) : Bal s s := ⟨0, Nat.add_zero _ |>.symm, Nat.add_zero _ |>.symm⟩

theorem bal_trans {s t u : EngineState} (h1 : Bal s t) (h2 : Bal t u) :
    Bal s u := by
  rcases h1 with ⟨k1, ha1, hn1⟩
  rcases h2 with ⟨k2, ha2, hn2⟩
  exact ⟨k1 + k2, by omega, by omega⟩

theorem bal_canonAtom (s : EngineState) (v : Value) :
    Bal s (getCanonicalAtom s v).2 := by
  cases hm : lookupL s.atomRegistry v.jsString with
  | some u => rw [canonAtom_hit hm]; exact bal_refl s
  | none =>
    rw [canonAtom_new hm]
    refine ⟨1, ?_, rfl⟩
    show ((s.nodeRepository ++ [(mintURI true s.counter,
      NodeR.atom (mintURI true s.counter) v)]).filter (fun e => e.2.isAtomN)).length = _
    rw [List.filter_append, List.length_append]
    simp [NodeR.isAtomN, countAtoms]

theorem bal_canonFrag (s : EngineState) (c : List String)
    (cs : Option (String × String)) : Bal s (getCanonicalFragment s c cs).2 := by
  cases hm : lookupL s.fragmentRegistry c with
  | some u => rw [canonFrag_hit hm]; exact bal_refl s
  | none =>
    rw [canonFrag_new hm]
    refine ⟨0, ?_, rfl⟩
    show ((s.nodeRepository ++ [(mintURI false s.counter,
      NodeR.fragment (mintURI false s.counter) c.length (fragHeight s c cs) c cs)]).filter
        (fun e => e.2.isAtomN)).length = _
    rw [List.filter_append, List.length_append]
    simp [NodeR.isAtomN, countAtoms]

theorem bal_normalize (items : List Value) :
    ∀ s : EngineState, Bal s (normalizeItems s items).2 := by
  induction items with
  | nil => intro s; exact bal_refl s
  | cons it rest ih =>
    intro s
    rw [normalizeItems]
    by_cases hu : isURIString it.jsString
    · simpa [hu] using ih s
    · simp only [hu, if_false, ite_false]
      exact bal_trans (bal_canonAtom s it) (ih _)

theorem bal_wrappers (base : List String) :
    ∀ s : EngineState, Bal s (buildWrappers s base).2 := by
  induction base with
  | nil => intro s; exact bal_refl s
  | cons u rest ih =>
    intro s
    rw [buildWrappers]
    exact bal_trans (bal_canonFrag s [u] none) (ih _)

theorem bal_ingestStep (N : Nat) (base : List String) (len : Nat)
    (acc : String × EngineState) (i : Nat) :
    Bal acc.2 (ingestStep N base len acc i).2 := by
  rw [ingestStep]
  cases hL : lookupL acc.2.fragmentRegistry (sliceL base i (len - 1)) with
  | none => exact bal_refl _
  | some lu =>
    cases hR : lookupL acc.2.fragmentRegistry (sliceL base (i + 1) (len - 1)) with
    | none => exact bal_refl _
    | some ru => exact bal_canonFrag _ _ _

theorem bal_foldl {α : Type} {f : String × EngineState → α → String × EngineState}
    (hf : ∀ b a, Bal b.2 (f b a).2) (l : List α) :
    ∀ acc, Bal acc.2 (l.foldl f acc).2 := by
  induction l with
  | nil => intro acc; exact bal_refl _
  | cons a t ih => intro acc; exact bal_trans (hf acc a) (ih (f acc a))

theorem bal_ingestLoop (base : List String) (N : Nat) (acc : String × EngineState) :
    Bal acc.2 (ingestLoop base N acc).2 := by
  rw [ingestLoop]
  exact bal_foldl
    (fun b len => bal_foldl (fun b2 i => bal_ingestStep N base len b2 i) _ b) _ acc

/-- C7 counterexample: ingesting `["a", "b"]` into a fresh engine fires
three notifications (one per created atom via `getCanonicalAtom`, plus the
final one), not exactly one. -/
theorem C7_single_notification_counterexample :
    (ingestSequence initState [Value.str "a", Value.str "b"]).2.notifications =
      initState.notifications + 3 := by
  decide

/-- C7 amended: a non-empty `ingestSequence` call fires exactly
`1 + k` notifications, where `k` is the number of atoms the call created:
`getCanonicalAtom` notifies once per new atom and the ingest adds a single
final notification; fragment creation never notifies. -/
theorem C7_notifications_per_ingest (s : EngineState) (items : List Value)
    (h : items ≠ []) :
    ∃ k, countAtoms (ingestSequence s items).2 = countAtoms s + k ∧
      (ingestSequence s items).2.notifications = s.notifications + k + 1 := by
  simp only [ingestSequence]
  split
  · rename_i hemp
    exact absurd (List.isEmpty_iff.mp hemp) h
  · split
    · rcases bal_trans (bal_normalize items s)
        (bal_wrappers (normalizeItems s items).1 (normalizeItems s items).2) with
        ⟨k, ha, hn⟩
      exact ⟨k, ha, by simp only [notify]; omega⟩
    · rcases bal_trans (bal_normalize items s)
        (bal_trans (bal_wrappers (normalizeItems s items).1 (normalizeItems s items).2)
          (bal_ingestLoop (normalizeItems s items).1 (normalizeItems s items).1.length
            ((buildWrappers (normalizeItems s items).2 (normalizeItems s items).1).1.headD "",
             (buildWrappers (normalizeItems s items).2 (normalizeItems s items).1).2))) with
        ⟨k, ha, hn⟩
      exact ⟨k, ha, by simp only [notify]; omega⟩

theorem C7_notifications_per_ingest_witness :
    ∃ k, countAtoms (ingestSequence initState
        [Value.str "a", Value.str "b"]).2 = countAtoms initState + k ∧
      (ingestSequence initState [Value.str "a", Value.str "b"]).2.notifications =
        initState.notifications + k + 1 :=
  C7_notifications_per_ingest initState [Value.str "a", Value.str "b"] (by decide)

/-! ### Claim C3: the height law -/

theorem refOK_of_minted {c : Nat} {r : String} {b0 : Bool}
    (h : ∃ i, r = mintURI b0 i ∧ i < c) : refOK c r := by
  rcases h with ⟨i, rfl, hic⟩
  intro b' j hj
  obtain ⟨-, rfl⟩ := mintURI_inj hj
  exact hic

theorem lookupL_append_refOK {repo : List (String × NodeR)} {r : String}
    {c : Nat} (h : refOK c r) (b : Bool) (n : NodeR) :
    lookupL (repo ++ [(mintURI b c, n)]) r = lookupL repo r := by
  cases hl : lookupL repo r with
  | some x => exact lookupL_append_some hl
  | none =>
    rw [lookupL_append_none _ hl]
    have hne : mintURI b c ≠ r := fun heq => absurd (h b c heq.symm) (lt_irrefl c)
    simp [lookupL, hne]

theorem heightOfUri_eq_of_lookup {s s' : EngineState} {r : String}
    (h : lookupL s'.nodeRepository r = lookupL s.nodeRepository r) :
    heightOfUri s' r = heightOfUri s r := by
  unfold heightOfUri getNode
  rw [h]

theorem heightOk_congr {s s' : EngineState} {n : NodeR}
    (h : ∀ r ∈ refsOf n, heightOfUri s' r = heightOfUri s r) :
    heightOk s' n = heightOk s n := by
  cases n with
  | atom i v => rfl
  | fragment i lvl hh c cs =>
    cases cs with
    | some ab =>
      rcases ab with ⟨a, b⟩
      have hha : heightOfUri s' a = heightOfUri s a := h a (by simp [refsOf])
      have hhb : heightOfUri s' b = heightOfUri s b := h b (by simp [refsOf])
      simp [heightOk, hha, hhb]
    | none =>
      cases c with
      | nil => rfl
      | cons c0 t =>
        have hh0 : heightOfUri s' c0 = heightOfUri s c0 := h c0 (by simp [refsOf])
        simp [heightOk, hh0]

theorem heights_canonAtom {s : EngineState} (hri : RefsInv s) (hhi : HeightsInv s)
    (v : Value) :
    RefsInv (getCanonicalAtom s v).2 ∧ HeightsInv (getCanonicalAtom s v).2 := by
  cases hm : lookupL s.atomRegistry v.jsString with
  | some u => rw [canonAtom_hit hm]; exact ⟨hri, hhi⟩
  | none =>
    rw [canonAtom_new hm]
    constructor
    · intro e he r hr
      rcases List.mem_append.mp he with h | h
      · exact refOK_mono (Nat.le_succ _) (hri e h r hr)
      · rcases List.mem_singleton.mp h with rfl
        simp [refsOf] at hr
    · intro e he
      rcases List.mem_append.mp he with h | h
      · have hcong : ∀ r ∈ refsOf e.2,
            heightOfUri { s with
              counter := s.counter + 1,
              nodeRepository := s.nodeRepository ++
                [(mintURI true s.counter, NodeR.atom (mintURI true s.counter) v)],
              atomRegistry := s.atomRegistry ++ [(v.jsString, mintURI true s.counter)],
              notifications := s.notifications + 1 } r = heightOfUri s r := by
          intro r hr
          exact heightOfUri_eq_of_lookup (lookupL_append_refOK (hri e h r hr) true _)
        rw [heightOk_congr hcong]
        exact hhi e h
      · rcases List.mem_singleton.mp h with rfl
        rfl

theorem heights_canonFrag {s : EngineState} (hri : RefsInv s) (hhi : HeightsInv s)
    (c : List String) (cs : Option (String × String))
    (hc : ∀ r ∈ c, refOK s.counter r)
    (hmin : ∀ a b, cs = some (a, b) →
      (∃ i, a = mintURI false i ∧ i < s.counter) ∧
        ∃ i, b = mintURI false i ∧ i < s.counter) :
    RefsInv (getCanonicalFragment s c cs).2 ∧
      HeightsInv (getCanonicalFragment s c cs).2 := by
  cases hm : lookupL s.fragmentRegistry c with
  | some u => rw [canonFrag_hit hm]; exact ⟨hri, hhi⟩
  | none =>
    rw [canonFrag_new hm]
    have hrefsNew : ∀ r ∈ refsOf (NodeR.fragment (mintURI false s.counter)
        c.length (fragHeight s c cs) c cs), refOK s.counter r := by
      intro r hr
      simp only [refsOf, List.mem_append] at hr
      rcases hr with hr | hr
      · exact hc r hr
      · cases cs with
        | none => simp at hr
        | some ab =>
          rcases ab with ⟨a, b⟩
          rcases hmin a b rfl with ⟨hia, hib⟩
          simp only [List.mem_cons, List.not_mem_nil, or_false] at hr
          rcases hr with rfl | rfl
          · exact refOK_of_minted hia
          · exact refOK_of_minted hib
    constructor
    · intro e he r hr
      rcases List.mem_append.mp he with h | h
      · exact refOK_mono (Nat.le_succ _) (hri e h r hr)
      · rcases List.mem_singleton.mp h with rfl
        exact refOK_mono (Nat.le_succ _) (hrefsNew r hr)
    · intro e he
      rcases List.mem_append.mp he with h | h
      · have hcong : ∀ r ∈ refsOf e.2,
            heightOfUri { s with
              counter := s.counter + 1,
              nodeRepository := s.nodeRepository ++
                [(mintURI false s.counter, NodeR.fragment (mintURI false s.counter)
                  c.length (fragHeight s c cs) c cs)],
              fragmentRegistry := s.fragmentRegistry ++ [(c, mintURI false s.counter)] }
              r = heightOfUri s r := by
          intro r hr
          exact heightOfUri_eq_of_lookup (lookupL_append_refOK (hri e h r hr) false _)
        rw [heightOk_congr hcong]
        exact hhi e h
      · rcases List.mem_singleton.mp h with rfl
        have hcong : ∀ r ∈ refsOf (NodeR.fragment (mintURI false s.counter)
            c.length (fragHeight s c cs) c cs),
            heightOfUri { s with
              counter := s.counter + 1,
              nodeRepository := s.nodeRepository ++
                [(mintURI false s.counter, NodeR.fragment (mintURI false s.counter)
                  c.length (fragHeight s c cs) c cs)],
              fragmentRegistry := s.fragmentRegistry ++ [(c, mintURI false s.counter)] }
              r = heightOfUri s r := by
          intro r hr
          exact heightOfUri_eq_of_lookup (lookupL_append_refOK (hrefsNew r hr) false _)
        show heightOk _ (NodeR.fragment (mintURI false s.counter)
          c.length (fragHeight s c cs) c cs) = true
        rw [heightOk_congr hcong]
        cases cs with
        | none =>
          cases c with
          | nil => rfl
          | cons c0 t => simp [heightOk, fragHeight]
        | some ab =>
          rcases ab with ⟨a, b⟩
          simp [heightOk, fragHeight]

theorem canonAtom_val_minted {s : EngineState} (hs : WF s) (v : Value) :
    ∃ i, (getCanonicalAtom s v).1 = mintURI true i ∧
      i < (getCanonicalAtom s v).2.counter := by
  cases hm : lookupL s.atomRegistry v.jsString with
  | some u =>
    rw [canonAtom_hit hm]
    rcases hs.atomValsMinted _ (lookupL_mem hm) with ⟨i, hei, hic⟩
    exact ⟨i, hei, hic⟩
  | none =>
    rw [canonAtom_new hm]
    exact ⟨s.counter, rfl, Nat.lt_succ_self _⟩

theorem nd_normalize (items : List Value) :
    ∀ s : EngineState, WF s → RefsInv s → HeightsInv s →
    (∀ it ∈ items, refOK s.counter it.jsString) →
    (WF (normalizeItems s items).2 ∧ RefsInv (normalizeItems s items).2 ∧
      HeightsInv (normalizeItems s items).2) ∧
    ∀ u ∈ (normalizeItems s items).1, refOK (normalizeItems s items).2.counter u := by
  induction items with
  | nil =>
    intro s hwf hri hhi hits
    exact ⟨⟨hwf, hri, hhi⟩, by simp [normalizeItems]⟩
  | cons it rest ih =>
    intro s hwf hri hhi hits
    rw [normalizeItems]
    by_cases hu : isURIString it.jsString
    · simp only [hu, if_true, ite_true]
      have hrest := ih s hwf hri hhi
        (fun it2 h2 => hits it2 (List.mem_cons_of_mem _ h2))
      refine ⟨hrest.1, ?_⟩
      intro u hu2
      rcases List.mem_cons.mp hu2 with rfl | h2
      · exact refOK_mono (mono_normalize rest s).counterLe (hits it (by simp))
      · exact hrest.2 u h2
    · simp only [hu, if_false, ite_false]
      have hwf1 := wf_canonAtom hwf it
      have hh1 := heights_canonAtom hri hhi it
      have hits1 : ∀ it2 ∈ rest,
          refOK (getCanonicalAtom s it).2.counter it2.jsString :=
        fun it2 h2 => refOK_mono (mono_canonAtom s it).counterLe
          (hits it2 (List.mem_cons_of_mem _ h2))
      have hrest := ih (getCanonicalAtom s it).2 hwf1 hh1.1 hh1.2 hits1
      refine ⟨hrest.1, ?_⟩
      intro u hu2
      rcases List.mem_cons.mp hu2 with rfl | h2
      · exact refOK_mono (mono_normalize rest _).counterLe
          (refOK_of_minted (canonAtom_val_minted hwf it))
      · exact hrest.2 u h2

theorem nd_wrappers (base : List String) :
    ∀ s : EngineState, WF s → RefsInv s → HeightsInv s →
    (∀ u ∈ base, refOK s.counter u) →
    WF (buildWrappers s base).2 ∧ RefsInv (buildWrappers s base).2 ∧
      HeightsInv (buildWrappers s base).2 := by
  induction base with
  | nil => intro s hwf hri hhi _; exact ⟨hwf, hri, hhi⟩
  | cons u rest ih =>
    intro s hwf hri hhi hbase
    rw [buildWrappers]
    have hwf1 := wf_canonFrag hwf [u] none (fun a b h => by cases h)
    have hh1 := heights_canonFrag hri hhi [u] none
      (fun r hr => by
        rcases List.mem_singleton.mp hr with rfl
        exact hbase r (by simp))
      (fun a b h => by cases h)
    exact ih _ hwf1 hh1.1 hh1.2
      (fun u2 h2 => refOK_mono (mono_canonFrag s [u] none).counterLe
        (hbase u2 (List.mem_cons_of_mem _ h2)))

theorem nd_ingestStep (N : Nat) (base : List String) (len : Nat)
    (acc : String × EngineState) (i : Nat)
    (h : (WF acc.2 ∧ RefsInv acc.2 ∧ HeightsInv acc.2) ∧
      ∀ u ∈ base, refOK acc.2.counter u) :
    (WF (ingestStep N base len acc i).2 ∧ RefsInv (ingestStep N base len acc i).2 ∧
      HeightsInv (ingestStep N base len acc i).2) ∧
    ∀ u ∈ base, refOK (ingestStep N base len acc i).2.counter u := by
  rcases h with ⟨⟨hwf, hri, hhi⟩, hbase⟩
  rw [ingestStep]
  cases hL : lookupL acc.2.fragmentRegistry (sliceL base i (len - 1)) with
  | none => exact ⟨⟨hwf, hri, hhi⟩, hbase⟩
  | some lu =>
    cases hR : lookupL acc.2.fragmentRegistry (sliceL base (i + 1) (len - 1)) with
    | none => exact ⟨⟨hwf, hri, hhi⟩, hbase⟩
    | some ru =>
      have hmin : ∀ a b, (some (lu, ru) : Option (String × String)) = some (a, b) →
          (∃ i0, a = mintURI false i0 ∧ i0 < acc.2.counter) ∧
            ∃ i0, b = mintURI false i0 ∧ i0 < acc.2.counter := by
        intro a b hab
        obtain ⟨rfl, rfl⟩ := Prod.mk.inj (Option.some.inj hab)
        exact ⟨hwf.fragValsMinted _ (lookupL_mem hL),
          hwf.fragValsMinted _ (lookupL_mem hR)⟩
      have hc : ∀ r ∈ sliceL base i len, refOK acc.2.counter r := by
        intro r hr
        exact hbase r (List.drop_subset i base (List.take_subset len _ hr))
      have hh1 := heights_canonFrag hri hhi (sliceL base i len) (some (lu, ru)) hc hmin
      refine ⟨⟨wf_canonFrag hwf _ _ hmin, hh1.1, hh1.2⟩, ?_⟩
      intro u hu2
      exact refOK_mono (mono_canonFrag acc.2 _ _).counterLe (hbase u hu2)

theorem nd_ingestLoop (base : List String) (N : Nat) (acc : String × EngineState)
    (h : (WF acc.2 ∧ RefsInv acc.2 ∧ HeightsInv acc.2) ∧
      ∀ u ∈ base, refOK acc.2.counter u) :
    WF (ingestLoop base N acc).2 ∧ RefsInv (ingestLoop base N acc).2 ∧
      HeightsInv (ingestLoop base N acc).2 := by
  rw [ingestLoop]
  have hres := foldl_pres
    (P := fun b : String × EngineState =>
      (WF b.2 ∧ RefsInv b.2 ∧ HeightsInv b.2) ∧ ∀ u ∈ base, refOK b.2.counter u)
    (f := fun acc2 len => (List.range (N - len + 1)).foldl (ingestStep N base len) acc2)
    (fun b len hb => foldl_pres
      (P := fun b2 : String × EngineState =>
        (WF b2.2 ∧ RefsInv b2.2 ∧ HeightsInv b2.2) ∧ ∀ u ∈ base, refOK b2.2.counter u)
      (fun b2 i hb2 => nd_ingestStep N base len b2 i hb2) _ b hb)
    (List.range' 2 (N - 1)) acc h
  exact hres.1

theorem nd_ingest {s : EngineState} (hwf : WF s) (hri : RefsInv s)
    (hhi : HeightsInv s) (items : List Value)
    (hitems : ∀ it ∈ items, refOK s.counter it.jsString) :
    WF (ingestSequence s items).2 ∧ RefsInv (ingestSequence s items).2 ∧
      HeightsInv (ingestSequence s items).2 := by
  simp only [ingestSequence]
  split
  · exact ⟨hwf, hri, hhi⟩
  · have hnorm := nd_normalize items s hwf hri hhi hitems
    have hwrap := nd_wrappers (normalizeItems s items).1 (normalizeItems s items).2
      hnorm.1.1 hnorm.1.2.1 hnorm.1.2.2 hnorm.2
    split
    · exact ⟨wf_notify hwrap.1, hwrap.2.1, hwrap.2.2⟩
    · have hloop := nd_ingestLoop (normalizeItems s items).1
        (normalizeItems s items).1.length
        ((buildWrappers (normalizeItems s items).2 (normalizeItems s items).1).1.headD "",
         (buildWrappers (normalizeItems s items).2 (normalizeItems s items).1).2)
        ⟨⟨hwrap.1, hwrap.2.1, hwrap.2.2⟩,
         fun u hu => refOK_mono
           (mono_wrappers (normalizeItems s items).1 (normalizeItems s items).2).counterLe
           (hnorm.2 u hu)⟩
      exact ⟨wf_notify hloop.1, hloop.2.1, hloop.2.2⟩

theorem reachableND_inv {s : EngineState} (h : ReachableND s) :
    WF s ∧ RefsInv s ∧ HeightsInv s := by
  induction h with
  | init =>
    refine ⟨wf_initState, ?_, ?_⟩
    · intro e he; simp [initState] at he
    · intro e he; simp [initState] at he
  | canon s v _ ih =>
    exact ⟨wf_canonAtom ih.1 v, (heights_canonAtom ih.2.1 ih.2.2 v).1,
      (heights_canonAtom ih.2.1 ih.2.2 v).2⟩
  | ingest s items _ hcond ih => exact nd_ingest ih.1 ih.2.1 ih.2.2 items hcond
  | resetStep s _ ih =>
    refine ⟨wf_reset ih.1, ?_, ?_⟩
    · intro e he; simp [reset] at he
    · intro e he; simp [reset] at he

/-- C3 counterexample: the height law is not an invariant of all states
reachable by the public operations.  After ingesting `["a","b","c"]` and
deleting both constituents `F(a,b)` and `F(b,c)` of the top fragment, the
top fragment still stores height 3, while the law — with both constituent
ids unresolved contributing height 0 — demands 1. -/
theorem C3_height_invariant_counterexample :
    Reachable stateDel ∧
    getNode stateDel (mintURI false 8) =
      some (NodeR.fragment (mintURI false 8) 3 3
        [mintURI true 0, mintURI true 1, mintURI true 2]
        (some (mintURI false 6, mintURI false 7))) ∧
    heightOk stateDel
      (NodeR.fragment (mintURI false 8) 3 3
        [mintURI true 0, mintURI true 1, mintURI true 2]
        (some (mintURI false 6, mintURI false 7))) = false := by
  refine ⟨?_, by decide, by decide⟩
  exact Reachable.del _ _ (Reachable.del _ _ (Reachable.ingest _ _ Reachable.init))

/-- C3 amended: the height law holds for every node in every state reachable
without `deleteNode` (and with ingested references never colliding with a
not-yet-minted identifier): atoms have height 0, a wrapper's height is its
child's height plus one, a composite's height is the maximum of its
constituents' heights plus one, an unresolved reference contributing height
0.  `deleteNode` can break the law by removing a fragment's constituents. -/
theorem C3_height_law (s : EngineState) (hr : ReachableND s) :
    (∀ e ∈ s.nodeRepository, e.2.isAtomN = true → e.2.heightN = 0) ∧
    ∀ e ∈ s.nodeRepository, heightOk s e.2 = true := by
  refine ⟨?_, (reachableND_inv hr).2.2⟩
  intro e _ hat
  cases hn : e.2 with
  | atom i v => rfl
  | fragment i lvl hh c cs => rw [hn] at hat; cases hat

theorem C3_height_law_witness :
    (∀ e ∈ stateABC.nodeRepository, e.2.isAtomN = true → e.2.heightN = 0) ∧
    ∀ e ∈ stateABC.nodeRepository, heightOk stateABC e.2 = true :=
  C3_height_law stateABC
    (ReachableND.ingest initState [Value.str "a", Value.str "b", Value.str "c"]
      ReachableND.init
      (by
        intro it hit
        simp only [List.mem_cons, List.not_mem_nil, or_false] at hit
        rcases hit with rfl | rfl | rfl <;> exact refOK_of_short (by decide)))

/-! ### Claim C2: idempotence of ingestSequence -/

theorem isSome_frag_mono {s t : EngineState} (hm : Mono s t) {k : List String}
    (h : (lookupL s.fragmentRegistry k).isSome) :
    (lookupL t.fragmentRegistry k).isSome := by
  rcases Option.isSome_iff_exists.mp h with ⟨v, hv⟩
  rw [hm.fragReg k v hv]
  rfl

theorem wrapPresent_mono {s t : EngineState} (hm : Mono s t) {base : List String}
    (h : WrapPresent s base) : WrapPresent t base :=
  fun u hu => isSome_frag_mono hm (h u hu)

theorem rowsPresent_mono {s t : EngineState} (hm : Mono s t) {base : List String}
    {L : Nat} (h : RowsPresent s base L) : RowsPresent t base L :=
  fun len h2 hL i hi => isSome_frag_mono hm (h len h2 hL i hi)

theorem rowsPresent_one (s : EngineState) (base : List String) :
    RowsPresent s base 1 := by
  intro len h2 h1 i hi
  omega

theorem normalize_replay : ∀ (items : List Value) (s t : EngineState),
    Mono (normalizeItems s items).2 t →
    normalizeItems t items = ((normalizeItems s items).1, t) := by
  intro items
  induction items with
  | nil => intro s t _; rfl
  | cons it rest ih =>
    intro s t hm
    by_cases hu : isURIString it.jsString
    · have hs2 : (normalizeItems s (it :: rest)).2 = (normalizeItems s rest).2 := by
        simp [normalizeItems, hu]
      have ihr := ih s t (hs2 ▸ hm)
      have hs1 : (normalizeItems s (it :: rest)).1 =
          it.jsString :: (normalizeItems s rest).1 := by
        simp [normalizeItems, hu]
      rw [hs1]
      simp [normalizeItems, hu, ihr]
    · have hs2 : (normalizeItems s (it :: rest)).2 =
          (normalizeItems (getCanonicalAtom s it).2 rest).2 := by
        simp [normalizeItems, hu]
      have hs1 : (normalizeItems s (it :: rest)).1 =
          (getCanonicalAtom s it).1 ::
            (normalizeItems (getCanonicalAtom s it).2 rest).1 := by
        simp [normalizeItems, hu]
      have hmono2 : Mono (getCanonicalAtom s it).2 t :=
        mono_trans (mono_normalize rest _) (hs2 ▸ hm)
      have hhit : lookupL t.atomRegistry it.jsString =
          some (getCanonicalAtom s it).1 :=
        hmono2.atomReg _ _ (canonAtom_lookup_post s it)
      have ihr := ih (getCanonicalAtom s it).2 t (hs2 ▸ hm)
      rw [hs1]
      simp [normalizeItems, hu, canonAtom_hit hhit, ihr]

theorem wrappers_replay : ∀ (base : List String) (s t : EngineState),
    Mono (buildWrappers s base).2 t →
    buildWrappers t base = ((buildWrappers s base).1, t) := by
  intro base
  induction base with
  | nil => intro s t _; rfl
  | cons u rest ih =>
    intro s t hm
    have hs2 : (buildWrappers s (u :: rest)).2 =
        (buildWrappers (getCanonicalFragment s [u] none).2 rest).2 := by
      simp [buildWrappers]
    have hs1 : (buildWrappers s (u :: rest)).1 =
        (getCanonicalFragment s [u] none).1 ::
          (buildWrappers (getCanonicalFragment s [u] none).2 rest).1 := by
      simp [buildWrappers]
    have hmono2 : Mono (getCanonicalFragment s [u] none).2 t :=
      mono_trans (mono_wrappers rest _) (hs2 ▸ hm)
    have hhit : lookupL t.fragmentRegistry [u] =
        some (getCanonicalFragment s [u] none).1 :=
      hmono2.fragReg _ _ (canonFrag_lookup_post s [u] none)
    have ihr := ih (getCanonicalFragment s [u] none).2 t (hs2 ▸ hm)
    rw [hs1]
    simp [buildWrappers, canonFrag_hit hhit, ihr]

theorem wrappers_present : ∀ (base : List String) (s : EngineState),
    WrapPresent (buildWrappers s base).2 base := by
  intro base
  induction base with
  | nil => intro s u hu; simp at hu
  | cons u rest ih =>
    intro s u2 hu2
    have hs2 : (buildWrappers s (u :: rest)).2 =
        (buildWrappers (getCanonicalFragment s [u] none).2 rest).2 := by
      simp [buildWrappers]
    rcases List.mem_cons.mp hu2 with rfl | h2
    · rw [hs2]
      exact isSome_frag_mono (mono_wrappers rest _)
        (by rw [canonFrag_lookup_post s [u2] none]; rfl)
    · rw [hs2]
      exact ih _ u2 h2

theorem foldl_range_pres {β : Type} {P : Nat → β → Prop} {f : β → Nat → β} :
    ∀ (n : Nat) (init : β), P 0 init →
    (∀ i b, i < n → P i b → P (i + 1) (f b i)) →
    P n ((List.range n).foldl f init) := by
  intro n
  induction n with
  | zero => intro init h0 _; exact h0
  | succ n ih =>
    intro init h0 hstep
    rw [List.range_succ, List.foldl_append]
    exact hstep n _ (Nat.lt_succ_self n)
      (ih init h0 (fun i b hi hb => hstep i b (Nat.lt_succ_of_lt hi) hb))

theorem foldl_pres_mem {α β : Type} {P : β → Prop} {f : β → α → β} :
    ∀ (l : List α), (∀ b a, a ∈ l → P b → P (f b a)) →
    ∀ acc, P acc → P (l.foldl f acc) := by
  intro l
  induction l with
  | nil => intro _ acc h; exact h
  | cons a t ih =>
    intro hf acc h
    exact ih (fun b x hx hb => hf b x (List.mem_cons_of_mem _ hx) hb) (f acc a)
      (hf acc a (by simp) h)

theorem sliceL_one {base : List String} {i : Nat} (h : i < base.length) :
    ∃ u ∈ base, sliceL base i 1 = [u] := by
  refine ⟨base[i], List.getElem_mem h, ?_⟩
  rw [sliceL, List.drop_eq_getElem_cons h]
  rfl

theorem normalize_length (items : List Value) :
    ∀ s : EngineState, (normalizeItems s items).1.length = items.length := by
  induction items with
  | nil => intro s; rfl
  | cons it rest ih =>
    intro s
    by_cases hu : isURIString it.jsString
    · simp [normalizeItems, hu, ih]
    · simp [normalizeItems, hu, ih]

theorem wrappers_length (base : List String) :
    ∀ s : EngineState, (buildWrappers s base).1.length = base.length := by
  induction base with
  | nil => intro s; rfl
  | cons u rest ih =>
    intro s
    simp [buildWrappers, ih]

theorem loop_row_first (base : List String) (N len : Nat) (hN : N = base.length)
    (hlen2 : 2 ≤ len) (hlenN : len ≤ N) (acc : String × EngineState)
    (hwrap : WrapPresent acc.2 base) (hprev : RowsPresent acc.2 base (len - 1)) :
    Mono acc.2 ((List.range (N - len + 1)).foldl (ingestStep N base len) acc).2 ∧
    WrapPresent ((List.range (N - len + 1)).foldl (ingestStep N base len) acc).2 base ∧
    RowsPresent ((List.range (N - len + 1)).foldl (ingestStep N base len) acc).2
      base len := by
  have hmain := foldl_range_pres (P := fun I b =>
      Mono acc.2 b.2 ∧ WrapPresent b.2 base ∧ RowsPresent b.2 base (len - 1) ∧
      ∀ i0, i0 < I → (lookupL b.2.fragmentRegistry (sliceL base i0 len)).isSome)
    (f := ingestStep N base len) (N - len + 1) acc
    ⟨Mono.rfl _, hwrap, hprev, fun i0 h0 => absurd h0 (Nat.not_lt_zero _)⟩
    (by
      intro i b hi hb
      rcases hb with ⟨hmono, hwrapb, hprevb, hrow⟩
      have hiN : i + len ≤ N := by omega
      have hileft : (lookupL b.2.fragmentRegistry (sliceL base i (len - 1))).isSome := by
        rcases Nat.lt_or_ge len 3 with h3 | h3
        · have hl2 : len - 1 = 1 := by omega
          rw [hl2]
          rcases @sliceL_one base (i) (by omega) with ⟨u, hu, hs⟩
          rw [hs]
          exact hwrapb u hu
        · exact hprevb (len - 1) (by omega) (le_refl _) i (by omega)
      have hiright : (lookupL b.2.fragmentRegistry
          (sliceL base (i + 1) (len - 1))).isSome := by
        rcases Nat.lt_or_ge len 3 with h3 | h3
        · have hl2 : len - 1 = 1 := by omega
          rw [hl2]
          rcases @sliceL_one base (i + 1) (by omega) with ⟨u, hu, hs⟩
          rw [hs]
          exact hwrapb u hu
        · exact hprevb (len - 1) (by omega) (le_refl _) (i + 1) (by omega)
      rcases Option.isSome_iff_exists.mp hileft with ⟨lu, hlu⟩
      rcases Option.isSome_iff_exists.mp hiright with ⟨ru, hru⟩
      have hstep : ingestStep N base len b i =
          (if len = N then (getCanonicalFragment b.2 (sliceL base i len)
              (some (lu, ru))).1 else b.1,
           (getCanonicalFragment b.2 (sliceL base i len) (some (lu, ru))).2) := by
        rw [ingestStep, hlu, hru]
      rw [hstep]
      have hm2 := mono_canonFrag b.2 (sliceL base i len) (some (lu, ru))
      refine ⟨mono_trans hmono hm2, wrapPresent_mono hm2 hwrapb,
        rowsPresent_mono hm2 hprevb, ?_⟩
      intro i0 h0
      rcases Nat.lt_or_ge i0 i with h1 | h1
      · exact isSome_frag_mono hm2 (hrow i0 h1)
      · have hi0 : i0 = i := by omega
        rw [hi0, canonFrag_lookup_post]
        rfl)
  refine ⟨hmain.1, hmain.2.1, ?_⟩
  intro len' h2 hL i hi
  rcases Nat.lt_or_ge len' len with h1 | h1
  · exact hmain.2.2.1 len' h2 (by omega) i hi
  · have hll : len' = len := by omega
    subst hll
    exact hmain.2.2.2 i (by omega)

theorem loop_first (base : List String) (N : Nat) (hN : N = base.length)
    (hN2 : 2 ≤ N) (acc : String × EngineState) (hwrap : WrapPresent acc.2 base) :
    Mono acc.2 (ingestLoop base N acc).2 ∧
    WrapPresent (ingestLoop base N acc).2 base ∧
    RowsPresent (ingestLoop base N acc).2 base N ∧
    lookupL (ingestLoop base N acc).2.fragmentRegistry (sliceL base 0 N) =
      some (ingestLoop base N acc).1 := by
  rw [ingestLoop]
  have hsplit : List.range' 2 (N - 1) = List.range' 2 (N - 2) ++ [N] := by
    have h1 : N - 1 = (N - 2) + 1 := by omega
    rw [h1, List.range'_1_concat]
    have h2 : 2 + (N - 2) = N := by omega
    rw [h2]
  rw [hsplit, List.foldl_append]
  have hmidP :
      Mono acc.2 ((List.range' 2 (N - 2)).foldl
        (fun acc2 len => (List.range (N - len + 1)).foldl (ingestStep N base len) acc2)
        acc).2 ∧
      WrapPresent ((List.range' 2 (N - 2)).foldl
        (fun acc2 len => (List.range (N - len + 1)).foldl (ingestStep N base len) acc2)
        acc).2 base ∧
      RowsPresent ((List.range' 2 (N - 2)).foldl
        (fun acc2 len => (List.range (N - len + 1)).foldl (ingestStep N base len) acc2)
        acc).2 base (N - 1) := by
    rw [List.range'_eq_map_range, List.foldl_map]
    have hmain := foldl_range_pres (P := fun k b =>
        Mono acc.2 b.2 ∧ WrapPresent b.2 base ∧ RowsPresent b.2 base (k + 1))
      (f := fun acc2 k => (List.range (N - (2 + k) + 1)).foldl
        (ingestStep N base (2 + k)) acc2)
      (N - 2) acc ⟨Mono.rfl _, hwrap, rowsPresent_one _ _⟩
      (by
        intro k b hk hb
        rcases hb with ⟨hmono, hwrapb, hrows⟩
        have hprev : RowsPresent b.2 base ((2 + k) - 1) := by
          have he : (2 + k) - 1 = k + 1 := by omega
          rw [he]
          exact hrows
        have hres := loop_row_first base N (2 + k) hN (by omega) (by omega) b hwrapb hprev
        refine ⟨mono_trans hmono hres.1, hres.2.1, ?_⟩
        have he2 : k + 1 + 1 = 2 + k := by omega
        rw [he2]
        exact hres.2.2)
    have he3 : N - 2 + 1 = N - 1 := by omega
    exact ⟨hmain.1, hmain.2.1, he3 ▸ hmain.2.2⟩
  set mid := (List.range' 2 (N - 2)).foldl
    (fun acc2 len => (List.range (N - len + 1)).foldl (ingestStep N base len) acc2) acc
      with hmiddef
  have hr1 : N - N + 1 = 1 := by omega
  simp only [List.foldl_cons, List.foldl_nil]
  rw [hr1, (by decide : List.range 1 = [0])]
  simp only [List.foldl_cons, List.foldl_nil]
  have hileft : (lookupL mid.2.fragmentRegistry (sliceL base 0 (N - 1))).isSome := by
    rcases Nat.lt_or_ge N 3 with h3 | h3
    · have hl2 : N - 1 = 1 := by omega
      rw [hl2]
      rcases @sliceL_one base (0) (by omega) with ⟨u, hu, hs⟩
      rw [hs]
      exact hmidP.2.1 u hu
    · exact hmidP.2.2 (N - 1) (by omega) (le_refl _) 0 (by omega)
  have hiright : (lookupL mid.2.fragmentRegistry (sliceL base 1 (N - 1))).isSome := by
    rcases Nat.lt_or_ge N 3 with h3 | h3
    · have hl2 : N - 1 = 1 := by omega
      rw [hl2]
      rcases @sliceL_one base (1) (by omega) with ⟨u, hu, hs⟩
      rw [hs]
      exact hmidP.2.1 u hu
    · exact hmidP.2.2 (N - 1) (by omega) (le_refl _) 1 (by omega)
  rcases Option.isSome_iff_exists.mp hileft with ⟨lu, hlu⟩
  rcases Option.isSome_iff_exists.mp hiright with ⟨ru, hru⟩
  have hstep : ingestStep N base N mid 0 =
      ((getCanonicalFragment mid.2 (sliceL base 0 N) (some (lu, ru))).1,
       (getCanonicalFragment mid.2 (sliceL base 0 N) (some (lu, ru))).2) := by
    rw [ingestStep, hlu, hru]
    simp
  rw [hstep]
  have hm2 := mono_canonFrag mid.2 (sliceL base 0 N) (some (lu, ru))
  refine ⟨mono_trans hmidP.1 hm2, wrapPresent_mono hm2 hmidP.2.1, ?_, ?_⟩
  · intro len' h2 hL i hi
    rcases Nat.lt_or_ge len' N with h1 | h1
    · exact isSome_frag_mono hm2 (hmidP.2.2 len' h2 (by omega) i hi)
    · have hll : len' = N := by omega
      subst hll
      have hi0 : i = 0 := by omega
      subst hi0
      rw [canonFrag_lookup_post]
      rfl
  · exact canonFrag_lookup_post mid.2 (sliceL base 0 N) (some (lu, ru))

theorem ingestStep_replay {N : Nat} {base : List String} {len : Nat}
    {acc : String × EngineState} {i : Nat} {lu ru cu : String}
    (hlu : lookupL acc.2.fragmentRegistry (sliceL base i (len - 1)) = some lu)
    (hru : lookupL acc.2.fragmentRegistry (sliceL base (i + 1) (len - 1)) = some ru)
    (hcu : lookupL acc.2.fragmentRegistry (sliceL base i len) = some cu) :
    ingestStep N base len acc i = (if len = N then cu else acc.1, acc.2) := by
  rw [ingestStep, hlu, hru]
  show (if len = N then (getCanonicalFragment acc.2 (sliceL base i len)
      (some (lu, ru))).1 else acc.1,
    (getCanonicalFragment acc.2 (sliceL base i len) (some (lu, ru))).2) =
      (if len = N then cu else acc.1, acc.2)
  rw [canonFrag_hit hcu]

theorem loop_row_replay (base : List String) (N len : Nat) (hN : N = base.length)
    (hlen2 : 2 ≤ len) (hlenN : len ≤ N) (hne : len ≠ N) (t : EngineState)
    (hwrap : WrapPresent t base) (hrows : RowsPresent t base N) :
    ∀ (I : Nat), I ≤ N - len + 1 → ∀ top : String,
      (List.range I).foldl (ingestStep N base len) (top, t) = (top, t) := by
  intro I
  induction I with
  | zero => intro _ top; rfl
  | succ I ih =>
    intro hI top
    rw [List.range_succ, List.foldl_append, ih (by omega) top]
    simp only [List.foldl_cons, List.foldl_nil]
    have hIN : I + len ≤ N := by omega
    have hileft : (lookupL t.fragmentRegistry (sliceL base I (len - 1))).isSome := by
      rcases Nat.lt_or_ge len 3 with h3 | h3
      · have hl2 : len - 1 = 1 := by omega
        rw [hl2]
        rcases @sliceL_one base (I) (by omega) with ⟨u, hu, hs⟩
        rw [hs]
        exact hwrap u hu
      · exact hrows (len - 1) (by omega) (by omega) I (by omega)
    have hiright : (lookupL t.fragmentRegistry (sliceL base (I + 1) (len - 1))).isSome := by
      rcases Nat.lt_or_ge len 3 with h3 | h3
      · have hl2 : len - 1 = 1 := by omega
        rw [hl2]
        rcases @sliceL_one base (I + 1) (by omega) with ⟨u, hu, hs⟩
        rw [hs]
        exact hwrap u hu
      · exact hrows (len - 1) (by omega) (by omega) (I + 1) (by omega)
    rcases Option.isSome_iff_exists.mp hileft with ⟨lu, hlu⟩
    rcases Option.isSome_iff_exists.mp hiright with ⟨ru, hru⟩
    rcases Option.isSome_iff_exists.mp (hrows len hlen2 hlenN I (by omega)) with ⟨cu, hcu⟩
    rw [@ingestStep_replay _ _ _ (top, t) _ _ _ _ hlu hru hcu]
    simp [hne]

theorem loop_replay (base : List String) (N : Nat) (hN : N = base.length)
    (hN2 : 2 ≤ N) (t : EngineState) (hwrap : WrapPresent t base)
    (hrows : RowsPresent t base N) (top cu : String)
    (hcu : lookupL t.fragmentRegistry (sliceL base 0 N) = some cu) :
    ingestLoop base N (top, t) = (cu, t) := by
  rw [ingestLoop]
  have hsplit : List.range' 2 (N - 1) = List.range' 2 (N - 2) ++ [N] := by
    have h1 : N - 1 = (N - 2) + 1 := by omega
    rw [h1, List.range'_1_concat]
    have h2 : 2 + (N - 2) = N := by omega
    rw [h2]
  rw [hsplit, List.foldl_append]
  have hmid : (List.range' 2 (N - 2)).foldl
      (fun acc2 len => (List.range (N - len + 1)).foldl (ingestStep N base len) acc2)
      (top, t) = (top, t) := by
    refine foldl_pres_mem (P := fun b => b = (top, t)) _ ?_ _ rfl
    intro b len hlen hb
    rcases List.mem_range'_1.mp hlen with ⟨hl2, hlu2⟩
    rw [hb]
    exact loop_row_replay base N len hN hl2 (by omega) (by omega) t hwrap hrows
      (N - len + 1) (le_refl _) top
  rw [hmid]
  simp only [List.foldl_cons, List.foldl_nil]
  have hr1 : N - N + 1 = 1 := by omega
  rw [hr1, (by decide : List.range 1 = [0])]
  simp only [List.foldl_cons, List.foldl_nil]
  have hileft : (lookupL t.fragmentRegistry (sliceL base 0 (N - 1))).isSome := by
    rcases Nat.lt_or_ge N 3 with h3 | h3
    · have hl2 : N - 1 = 1 := by omega
      rw [hl2]
      rcases @sliceL_one base (0) (by omega) with ⟨u, hu, hs⟩
      rw [hs]
      exact hwrap u hu
    · exact hrows (N - 1) (by omega) (by omega) 0 (by omega)
  have hiright : (lookupL t.fragmentRegistry (sliceL base 1 (N - 1))).isSome := by
    rcases Nat.lt_or_ge N 3 with h3 | h3
    · have hl2 : N - 1 = 1 := by omega
      rw [hl2]
      rcases @sliceL_one base (1) (by omega) with ⟨u, hu, hs⟩
      rw [hs]
      exact hwrap u hu
    · exact hrows (N - 1) (by omega) (by omega) 1 (by omega)
  rcases Option.isSome_iff_exists.mp hileft with ⟨lu, hlu⟩
  rcases Option.isSome_iff_exists.mp hiright with ⟨ru, hru⟩
  rw [@ingestStep_replay _ _ _ (top, t) _ _ _ _ hlu hru hcu]
  simp

theorem ingest_replay (s : EngineState) (items : List Value) (hne : items ≠ []) :
    ingestSequence (ingestSequence s items).2 items =
      ((ingestSequence s items).1, notify (ingestSequence s items).2) := by
  have hie : items.isEmpty = false := by
    cases items with
    | nil => exact absurd rfl hne
    | cons a t => rfl
  set nr := normalizeItems s items with hnrdef
  set wr := buildWrappers nr.2 nr.1 with hwrdef
  by_cases h1 : wr.1.length = 1
  · have hfirst : ingestSequence s items = (some (wr.1.headD ""), notify wr.2) := by
      simp only [ingestSequence, hie, Bool.false_eq_true, if_false, ite_false,
        ← hnrdef, ← hwrdef, h1, if_pos, ite_true]
    have hm1 : Mono nr.2 (notify wr.2) :=
      mono_trans (mono_wrappers nr.1 nr.2) (mono_notify wr.2)
    have hn2 : normalizeItems (notify wr.2) items = (nr.1, notify wr.2) :=
      normalize_replay items s (notify wr.2) hm1
    have hw2 : buildWrappers (notify wr.2) nr.1 = (wr.1, notify wr.2) :=
      wrappers_replay nr.1 nr.2 (notify wr.2) (mono_notify wr.2)
    rw [hfirst]
    show ingestSequence (notify wr.2) items = (some (wr.1.headD ""), notify (notify wr.2))
    simp only [ingestSequence, hie, Bool.false_eq_true, if_false, ite_false,
      hn2, hw2, h1, if_pos, ite_true]
  · have hN1 : nr.1.length = items.length := normalize_length items s
    have hlenw : wr.1.length = nr.1.length := wrappers_length nr.1 nr.2
    have hpos : 0 < items.length := by
      cases items with
      | nil => exact absurd rfl hne
      | cons a t => simp
    have hN2 : 2 ≤ nr.1.length := by omega
    set res := ingestLoop nr.1 nr.1.length (wr.1.headD "", wr.2) with hresdef
    have hfirst : ingestSequence s items = (some res.1, notify res.2) := by
      simp only [ingestSequence, hie, Bool.false_eq_true, if_false, ite_false,
        ← hnrdef, ← hwrdef]
      rw [if_neg h1]
    have hwrapP : WrapPresent wr.2 nr.1 := wrappers_present nr.1 nr.2
    have hloop := loop_first nr.1 nr.1.length rfl hN2 (wr.1.headD "", wr.2) hwrapP
    have hmall : Mono nr.2 (notify res.2) :=
      mono_trans (mono_wrappers nr.1 nr.2) (mono_trans hloop.1 (mono_notify _))
    have hn2 : normalizeItems (notify res.2) items = (nr.1, notify res.2) :=
      normalize_replay items s _ hmall
    have hw2 : buildWrappers (notify res.2) nr.1 = (wr.1, notify res.2) :=
      wrappers_replay nr.1 nr.2 _ (mono_trans hloop.1 (mono_notify _))
    have hloop2 : ingestLoop nr.1 nr.1.length (wr.1.headD "", notify res.2) =
        (res.1, notify res.2) :=
      loop_replay nr.1 nr.1.length rfl hN2 (notify res.2)
        (wrapPresent_mono (mono_notify _) hloop.2.1)
        (rowsPresent_mono (mono_notify _) hloop.2.2.1)
        (wr.1.headD "") res.1 ((mono_notify _).fragReg _ _ hloop.2.2.2)
    rw [hfirst]
    show ingestSequence (notify res.2) items = (some res.1, notify (notify res.2))
    simp only [ingestSequence, hie, Bool.false_eq_true, if_false, ite_false, hn2, hw2]
    rw [if_neg h1, hloop2]

/-- C2: ingesting the identical non-empty sequence a second time returns the
same top-level identifier and leaves the repository, the atom registry, the
fragment registry (and the mint counter) unchanged — the second call only
fires its final notification. -/
theorem C2_ingest_idempotent (s : EngineState) (items : List Value)
    (hne : items ≠ []) :
    (ingestSequence (ingestSequence s items).2 items).1 =
      (ingestSequence s items).1 ∧
    (ingestSequence (ingestSequence s items).2 items).2.nodeRepository =
      (ingestSequence s items).2.nodeRepository ∧
    (ingestSequence (ingestSequence s items).2 items).2.atomRegistry =
      (ingestSequence s items).2.atomRegistry ∧
    (ingestSequence (ingestSequence s items).2 items).2.fragmentRegistry =
      (ingestSequence s items).2.fragmentRegistry ∧
    (ingestSequence (ingestSequence s items).2 items).2.counter =
      (ingestSequence s items).2.counter := by
  rw [ingest_replay s items hne]
  exact ⟨rfl, rfl, rfl, rfl, rfl⟩

theorem C2_ingest_idempotent_witness :
    (ingestSequence (ingestSequence initState
        [Value.str "a", Value.str "b"]).2 [Value.str "a", Value.str "b"]).1 =
      (ingestSequence initState [Value.str "a", Value.str "b"]).1 ∧
    (ingestSequence (ingestSequence initState
        [Value.str "a", Value.str "b"]).2 [Value.str "a", Value.str "b"]).2.nodeRepository =
      (ingestSequence initState [Value.str "a", Value.str "b"]).2.nodeRepository ∧
    (ingestSequence (ingestSequence initState
        [Value.str "a", Value.str "b"]).2 [Value.str "a", Value.str "b"]).2.atomRegistry =
      (ingestSequence initState [Value.str "a", Value.str "b"]).2.atomRegistry ∧
    (ingestSequence (ingestSequence initState
        [Value.str "a", Value.str "b"]).2 [Value.str "a", Value.str "b"]).2.fragmentRegistry =
      (ingestSequence initState [Value.str "a", Value.str "b"]).2.fragmentRegistry ∧
    (ingestSequence (ingestSequence initState
        [Value.str "a", Value.str "b"]).2 [Value.str "a", Value.str "b"]).2.counter =
      (ingestSequence initState [Value.str "a", Value.str "b"]).2.counter :=
  C2_ingest_idempotent initState [Value.str "a", Value.str "b"] (by decide)

/-! ### Claim C1: lattice shape for fresh distinct values -/

theorem atom_not_other {n : NodeR} (h : n.isAtomN = true) :
    n.isWrapperN = false ∧ n.isCompositeN = false := by
  cases n with
  | atom i v => exact ⟨rfl, rfl⟩
  | fragment i lvl hh c cs => cases h

theorem wrapper_not_other {n : NodeR} (h : n.isWrapperN = true) :
    n.isAtomN = false ∧ n.isCompositeN = false := by
  cases n with
  | atom i v => cases h
  | fragment i lvl hh c cs =>
    cases cs with
    | none => exact ⟨rfl, rfl⟩
    | some p => cases h

theorem composite_not_other {n : NodeR} (h : n.isCompositeN = true) :
    n.isAtomN = false ∧ n.isWrapperN = false := by
  cases n with
  | atom i v => cases h
  | fragment i lvl hh c cs =>
    cases cs with
    | none => cases h
    | some p => exact ⟨rfl, rfl⟩

theorem filter_all_true {α : Type} {l : List α} {p : α → Bool}
    (h : ∀ e ∈ l, p e = true) : (l.filter p).length = l.length := by
  rw [List.filter_eq_self.mpr h]

theorem filter_all_false {α : Type} {l : List α} {p : α → Bool}
    (h : ∀ e ∈ l, p e = false) : (l.filter p).length = 0 := by
  rw [List.filter_eq_nil_iff.mpr (fun a ha hp => by rw [h a ha] at hp; cases hp)]
  rfl

theorem lookup_isSome_of_key_mem {κ α : Type} [DecidableEq κ]
    {l : List (κ × α)} {k : κ} (h : k ∈ l.map Prod.fst) :
    (lookupL l k).isSome := by
  rcases List.mem_map.mp h with ⟨e, he, hek⟩
  rcases lookupL_isSome_of_mem (show (k, e.2) ∈ l from by
    rw [← hek]; exact he) with ⟨w, hw⟩
  rw [hw]
  rfl

theorem lookup_none_of_key_not_mem {κ α : Type} [DecidableEq κ]
    {l : List (κ × α)} {k : κ} (h : k ∉ l.map Prod.fst) :
    lookupL l k = none := by
  rw [lookupL_eq_none_iff]
  intro e he hek
  exact h (List.mem_map.mpr ⟨e, he, hek⟩)

theorem sliceL_length {l : List String} {i len : Nat} (h : i + len ≤ l.length) :
    (sliceL l i len).length = len := by
  rw [sliceL, List.length_take, List.length_drop]
  omega

theorem sliceL_cons {l : List String} {i len : Nat} (hi : i < l.length)
    (hlen : 1 ≤ len) :
    sliceL l i len = l[i] :: sliceL l (i + 1) (len - 1) := by
  rw [sliceL, sliceL, List.drop_eq_getElem_cons hi]
  cases len with
  | zero => omega
  | succ m => rfl

theorem sliceL_ne_of_ne {base : List String} (hnd : base.Nodup) {i j len : Nat}
    (hlen : 1 ≤ len) (hi : i + len ≤ base.length) (hj : j + len ≤ base.length)
    (hne : i ≠ j) : sliceL base i len ≠ sliceL base j len := by
  intro he
  rw [sliceL_cons (by omega) hlen, sliceL_cons (by omega) hlen] at he
  have hhead : base[i] = base[j] := (List.cons.inj he).1
  exact hne ((List.Nodup.getElem_inj_iff hnd).mp hhead)

theorem allRowKeys_succ (base : List String) (L : Nat) :
    allRowKeys base (L + 1) = allRowKeys base L ++ rowKeys base (L + 2) := by
  rw [allRowKeys, allRowKeys, List.range_succ, List.flatMap_append]
  simp

theorem allRowKeys_mem_elim {base : List String} {L : Nat} {k : List String}
    (h : k ∈ allRowKeys base L) :
    ∃ l j, 2 ≤ l ∧ l ≤ L + 1 ∧ j ≤ base.length - l ∧ k = sliceL base j l := by
  rw [allRowKeys] at h
  rcases List.mem_flatMap.mp h with ⟨k0, hk0, hk⟩
  rw [rowKeys] at hk
  rcases List.mem_map.mp hk with ⟨j, hj, hjk⟩
  rw [List.mem_range] at hk0 hj
  exact ⟨k0 + 2, j, by omega, by omega, by omega, hjk.symm⟩

theorem allRowKeys_mem_intro {base : List String} {L l j : Nat}
    (h2 : 2 ≤ l) (hL : l ≤ L + 1) (hj : j + l ≤ base.length) :
    sliceL base j l ∈ allRowKeys base L := by
  rw [allRowKeys]
  refine List.mem_flatMap.mpr ⟨l - 2, ?_, ?_⟩
  · rw [List.mem_range]
    omega
  · rw [rowKeys]
    refine List.mem_map.mpr ⟨j, ?_, ?_⟩
    · rw [List.mem_range]
      omega
    · congr 1
      omega

theorem sum_map_succ {α : Type} (l : List α) (f : α → Nat) :
    (l.map (fun x => f x + 1)).sum = (l.map f).sum + l.length := by
  induction l with
  | nil => rfl
  | cons a t ih =>
    simp only [List.map_cons, List.sum_cons, ih, List.length_cons]
    omega

theorem twice_sum_desc : ∀ m : Nat,
    2 * ((List.range m).map (fun k => m - k)).sum = m * (m + 1) := by
  intro m
  induction m with
  | zero => rfl
  | succ m ih =>
    have hsplit : ((List.range (m + 1)).map (fun k => (m + 1) - k)).sum =
        ((List.range m).map (fun k => (m + 1) - k)).sum + 1 := by
      rw [List.range_succ, List.map_append, List.sum_append]
      simp
    have hshift : ((List.range m).map (fun k => (m + 1) - k)).sum =
        ((List.range m).map (fun k => (m - k) + 1)).sum := by
      refine congrArg List.sum (List.map_congr_left ?_)
      intro a ha
      rw [List.mem_range] at ha
      omega
    have hsucc := sum_map_succ (List.range m) (fun k => m - k)
    rw [List.length_range] at hsucc
    have hring : m * (m + 1) + 2 * (m + 1) = (m + 1) * (m + 1 + 1) := by ring
    linarith [hsplit, hshift, hsucc, ih, hring]

theorem allRowKeys_twice_length {base : List String} {N : Nat}
    (hN : N = base.length) (hN2 : 2 ≤ N) :
    2 * (allRowKeys base (N - 1)).length = N * (N - 1) := by
  rw [allRowKeys, List.length_flatMap]
  have h1 : (List.range (N - 1)).map (List.length ∘ fun k => rowKeys base (k + 2)) =
      (List.range (N - 1)).map (fun k => (N - 1) - k) := by
    refine List.map_congr_left ?_
    intro a ha
    rw [List.mem_range] at ha
    show (rowKeys base (a + 2)).length = (N - 1) - a
    rw [rowKeys, List.length_map, List.length_range]
    omega
  rw [h1]
  have h2 := twice_sum_desc (N - 1)
  have h3 : (N - 1) * (N - 1 + 1) = N * (N - 1) := by
    have h4 : N - 1 + 1 = N := by omega
    rw [h4]
    ring
  linarith [h2, h3]

theorem normalize_fresh : ∀ (items : List Value) (s : EngineState),
    (∀ it ∈ items, isURIString it.jsString = false) →
    (items.map Value.jsString).Nodup →
    (∀ it ∈ items, lookupL s.atomRegistry it.jsString = none) →
    (normalizeItems s items).1.Nodup ∧
    (∀ u ∈ (normalizeItems s items).1, ∃ i, u = mintURI true i ∧ s.counter ≤ i) ∧
    (normalizeItems s items).2.fragmentRegistry = s.fragmentRegistry ∧
    ∃ nrepo, (normalizeItems s items).2.nodeRepository =
        s.nodeRepository ++ nrepo ∧
      nrepo.length = items.length ∧ ∀ e ∈ nrepo, e.2.isAtomN = true := by
  intro items
  induction items with
  | nil =>
    intro s _ _ _
    exact ⟨List.nodup_nil, by simp [normalizeItems], rfl,
      ⟨[], by simp [normalizeItems], rfl, by simp⟩⟩
  | cons it rest ih =>
    intro s hniu hnd hfresh
    have hu : isURIString it.jsString = false := hniu it (by simp)
    have hm : lookupL s.atomRegistry it.jsString = none := hfresh it (by simp)
    have hca := canonAtom_new hm
    rw [List.map_cons, List.nodup_cons] at hnd
    have hs1c : (getCanonicalAtom s it).2.counter = s.counter + 1 := by rw [hca]
    have hs1f : (getCanonicalAtom s it).2.fragmentRegistry = s.fragmentRegistry := by
      rw [hca]
    have hs1r : (getCanonicalAtom s it).2.nodeRepository = s.nodeRepository ++
        [(mintURI true s.counter, NodeR.atom (mintURI true s.counter) it)] := by
      rw [hca]
    have hs1a : (getCanonicalAtom s it).2.atomRegistry = s.atomRegistry ++
        [(it.jsString, mintURI true s.counter)] := by
      rw [hca]
    have hfresh1 : ∀ it2 ∈ rest,
        lookupL (getCanonicalAtom s it).2.atomRegistry it2.jsString = none := by
      intro it2 h2
      rw [hs1a, lookupL_append_none _ (hfresh it2 (List.mem_cons_of_mem _ h2))]
      have hne : it.jsString ≠ it2.jsString := by
        intro he
        exact hnd.1 (he ▸ List.mem_map.mpr ⟨it2, h2, rfl⟩)
      simp [lookupL, hne]
    have ihr := ih (getCanonicalAtom s it).2
      (fun it2 h2 => hniu it2 (List.mem_cons_of_mem _ h2)) hnd.2 hfresh1
    have he1 : (normalizeItems s (it :: rest)).1 =
        (getCanonicalAtom s it).1 ::
          (normalizeItems (getCanonicalAtom s it).2 rest).1 := by
      simp [normalizeItems, hu]
    have he2 : (normalizeItems s (it :: rest)).2 =
        (normalizeItems (getCanonicalAtom s it).2 rest).2 := by
      simp [normalizeItems, hu]
    have hu1 : (getCanonicalAtom s it).1 = mintURI true s.counter := by rw [hca]
    refine ⟨?_, ?_, ?_, ?_⟩
    · rw [he1, hu1]
      refine List.nodup_cons.mpr ⟨?_, ihr.1⟩
      intro hmem
      rcases ihr.2.1 _ hmem with ⟨i, hei, hge⟩
      rw [hs1c] at hge
      exact absurd (mintURI_inj hei).2 (by omega)
    · intro u hu2
      rw [he1] at hu2
      rcases List.mem_cons.mp hu2 with rfl | h2
      · exact ⟨s.counter, hu1, le_refl _⟩
      · rcases ihr.2.1 u h2 with ⟨i, hei, hge⟩
        rw [hs1c] at hge
        exact ⟨i, hei, by omega⟩
    · rw [he2, ihr.2.2.1, hs1f]
    · rcases ihr.2.2.2 with ⟨nrepo, hrep, hlen, hatoms⟩
      refine ⟨(mintURI true s.counter,
        NodeR.atom (mintURI true s.counter) it) :: nrepo, ?_, ?_, ?_⟩
      · rw [he2, hrep, hs1r, List.append_assoc]
        rfl
      · simp [hlen]
      · intro e he
        rcases List.mem_cons.mp he with rfl | h2
        · rfl
        · exact hatoms e h2

theorem wrappers_fresh : ∀ (base : List String) (s : EngineState),
    base.Nodup →
    (∀ u ∈ base, lookupL s.fragmentRegistry [u] = none) →
    (buildWrappers s base).2.fragmentRegistry.map Prod.fst =
      s.fragmentRegistry.map Prod.fst ++ wrapperKeys base ∧
    (buildWrappers s base).2.atomRegistry = s.atomRegistry ∧
    ∃ nrepo, (buildWrappers s base).2.nodeRepository = s.nodeRepository ++ nrepo ∧
      nrepo.length = base.length ∧ ∀ e ∈ nrepo, e.2.isWrapperN = true := by
  intro base
  induction base with
  | nil =>
    intro s _ _
    exact ⟨by simp [buildWrappers, wrapperKeys], rfl,
      ⟨[], by simp [buildWrappers], rfl, by simp⟩⟩
  | cons u rest ih =>
    intro s hnd hfresh
    rw [List.nodup_cons] at hnd
    have hm : lookupL s.fragmentRegistry [u] = none := hfresh u (by simp)
    have hcf := @canonFrag_new _ _ none hm
    have hs1f : (getCanonicalFragment s [u] none).2.fragmentRegistry =
        s.fragmentRegistry ++ [([u], mintURI false s.counter)] := by
      rw [hcf]
    have hs1a : (getCanonicalFragment s [u] none).2.atomRegistry =
        s.atomRegistry := by
      rw [hcf]
    have hs1r : (getCanonicalFragment s [u] none).2.nodeRepository =
        s.nodeRepository ++ [(mintURI false s.counter,
          NodeR.fragment (mintURI false s.counter) 1
            (fragHeight s [u] none) [u] none)] := by
      rw [hcf]
      rfl
    have hfresh1 : ∀ u2 ∈ rest,
        lookupL (getCanonicalFragment s [u] none).2.fragmentRegistry [u2] = none := by
      intro u2 h2
      rw [hs1f, lookupL_append_none _ (hfresh u2 (List.mem_cons_of_mem _ h2))]
      have hne : ([u] : List String) ≠ [u2] := by
        intro he
        exact hnd.1 ((List.cons.inj he).1 ▸ h2)
      simp [lookupL, hne]
    have ihr := ih (getCanonicalFragment s [u] none).2 hnd.2 hfresh1
    have he2 : (buildWrappers s (u :: rest)).2 =
        (buildWrappers (getCanonicalFragment s [u] none).2 rest).2 := by
      simp [buildWrappers]
    refine ⟨?_, ?_, ?_⟩
    · rw [he2, ihr.1, hs1f, List.map_append, List.append_assoc]
      rfl
    · rw [he2, ihr.2.1, hs1a]
    · rcases ihr.2.2 with ⟨nrepo, hrep, hlen, hwr⟩
      refine ⟨(mintURI false s.counter, NodeR.fragment (mintURI false s.counter) 1
          (fragHeight s [u] none) [u] none) :: nrepo, ?_, ?_, ?_⟩
      · rw [he2, hrep, hs1r, List.append_assoc]
        rfl
      · simp [hlen]
      · intro e he
        rcases List.mem_cons.mp he with rfl | h2
        · rfl
        · exact hwr e h2

theorem loop_row_count (base : List String) (N len : Nat) (hN : N = base.length)
    (hnd : base.Nodup) (hlen2 : 2 ≤ len) (hlenN : len ≤ N)
    (R0 : List (String × NodeR)) (A : List (String × String))
    (acc : String × EngineState)
    (hkeys : acc.2.fragmentRegistry.map Prod.fst =
      wrapperKeys base ++ allRowKeys base (len - 2))
    (hareg : acc.2.atomRegistry = A)
    (hrepo : ∃ nrepo, acc.2.nodeRepository = R0 ++ nrepo ∧
      nrepo.length = (allRowKeys base (len - 2)).length ∧
      ∀ e ∈ nrepo, e.2.isCompositeN = true) :
    ((List.range (N - len + 1)).foldl (ingestStep N base len)
      acc).2.fragmentRegistry.map Prod.fst =
        wrapperKeys base ++ allRowKeys base (len - 1) ∧
    ((List.range (N - len + 1)).foldl (ingestStep N base len) acc).2.atomRegistry = A ∧
    ∃ nrepo, ((List.range (N - len + 1)).foldl (ingestStep N base len)
        acc).2.nodeRepository = R0 ++ nrepo ∧
      nrepo.length = (allRowKeys base (len - 1)).length ∧
      ∀ e ∈ nrepo, e.2.isCompositeN = true := by
  have hmain := foldl_range_pres (P := fun I b =>
      b.2.fragmentRegistry.map Prod.fst = wrapperKeys base ++
        allRowKeys base (len - 2) ++ (List.range I).map (fun i => sliceL base i len) ∧
      b.2.atomRegistry = A ∧
      ∃ nrepo, b.2.nodeRepository = R0 ++ nrepo ∧
        nrepo.length = (allRowKeys base (len - 2)).length + I ∧
        ∀ e ∈ nrepo, e.2.isCompositeN = true)
    (f := ingestStep N base len) (N - len + 1) acc
    ⟨by simpa using hkeys, hareg, by simpa using hrepo⟩
    (by
      intro i b hi hb
      rcases hb with ⟨hkeysb, haregb, nrepo, hrepob, hlenb, hcompb⟩
      have hiN : i + len ≤ N := by omega
      have hileft : (lookupL b.2.fragmentRegistry (sliceL base i (len - 1))).isSome := by
        refine lookup_isSome_of_key_mem ?_
        rw [hkeysb]
        rcases Nat.lt_or_ge len 3 with h3 | h3
        · have hl2 : len - 1 = 1 := by omega
          rw [hl2]
          rcases @sliceL_one base (i) (by omega) with ⟨u, hu, hs⟩
          rw [hs]
          exact List.mem_append_left _ (List.mem_append_left _
            (List.mem_map.mpr ⟨u, hu, rfl⟩))
        · exact List.mem_append_left _ (List.mem_append_right _
            (allRowKeys_mem_intro (by omega) (by omega) (by omega)))
      have hiright : (lookupL b.2.fragmentRegistry
          (sliceL base (i + 1) (len - 1))).isSome := by
        refine lookup_isSome_of_key_mem ?_
        rw [hkeysb]
        rcases Nat.lt_or_ge len 3 with h3 | h3
        · have hl2 : len - 1 = 1 := by omega
          rw [hl2]
          rcases @sliceL_one base (i + 1) (by omega) with ⟨u, hu, hs⟩
          rw [hs]
          exact List.mem_append_left _ (List.mem_append_left _
            (List.mem_map.mpr ⟨u, hu, rfl⟩))
        · exact List.mem_append_left _ (List.mem_append_right _
            (allRowKeys_mem_intro (by omega) (by omega) (by omega)))
      have hcurlen : (sliceL base i len).length = len := sliceL_length (by omega)
      have hnone : lookupL b.2.fragmentRegistry (sliceL base i len) = none := by
        refine lookup_none_of_key_not_mem ?_
        rw [hkeysb]
        intro hmem
        rcases List.mem_append.mp hmem with hmem1 | hmem3
        · rcases List.mem_append.mp hmem1 with hmem1 | hmem2
          · rcases List.mem_map.mp hmem1 with ⟨u, _, hu2⟩
            have : (sliceL base i len).length = 1 := by rw [← hu2]; rfl
            omega
          · rcases allRowKeys_mem_elim hmem2 with ⟨l, j, hl2, hlL, hjl, hkey⟩
            have : (sliceL base i len).length = l := by
              rw [hkey]
              exact sliceL_length (by omega)
            omega
        · rcases List.mem_map.mp hmem3 with ⟨j, hj, hjeq⟩
          rw [List.mem_range] at hj
          exact sliceL_ne_of_ne hnd (by omega) (by omega) (by omega)
            (by omega) hjeq.symm
      rcases Option.isSome_iff_exists.mp hileft with ⟨lu, hlu⟩
      rcases Option.isSome_iff_exists.mp hiright with ⟨ru, hru⟩
      have hstep : ingestStep N base len b i =
          (if len = N then (getCanonicalFragment b.2 (sliceL base i len)
              (some (lu, ru))).1 else b.1,
           (getCanonicalFragment b.2 (sliceL base i len) (some (lu, ru))).2) := by
        rw [ingestStep, hlu, hru]
      rw [hstep]
      have hcf := @canonFrag_new _ _ (some (lu, ru)) hnone
      have hf : (getCanonicalFragment b.2 (sliceL base i len)
          (some (lu, ru))).2.fragmentRegistry =
          b.2.fragmentRegistry ++ [(sliceL base i len, mintURI false b.2.counter)] := by
        rw [hcf]
      have ha : (getCanonicalFragment b.2 (sliceL base i len)
          (some (lu, ru))).2.atomRegistry = b.2.atomRegistry := by
        rw [hcf]
      have hr : (getCanonicalFragment b.2 (sliceL base i len)
          (some (lu, ru))).2.nodeRepository = b.2.nodeRepository ++
          [(mintURI false b.2.counter, NodeR.fragment (mintURI false b.2.counter)
            (sliceL base i len).length
            (fragHeight b.2 (sliceL base i len) (some (lu, ru)))
            (sliceL base i len) (some (lu, ru)))] := by
        rw [hcf]
      refine ⟨?_, ?_, ?_⟩
      · rw [hf, List.map_append, hkeysb, List.range_succ, List.map_append,
          List.append_assoc]
        rfl
      · rw [ha, haregb]
      · refine ⟨nrepo ++ [(mintURI false b.2.counter,
          NodeR.fragment (mintURI false b.2.counter) (sliceL base i len).length
            (fragHeight b.2 (sliceL base i len) (some (lu, ru)))
            (sliceL base i len) (some (lu, ru)))], ?_, ?_, ?_⟩
        · rw [hr, hrepob, List.append_assoc]
        · rw [List.length_append, hlenb]
          simp
          omega
        · intro e he
          rcases List.mem_append.mp he with h2 | h2
          · exact hcompb e h2
          · rcases List.mem_singleton.mp h2 with rfl
            rfl)
  rcases hmain with ⟨hkeysf, haregf, nrepo, hrepof, hlenf, hcompf⟩
  have hrow : (List.range (N - len + 1)).map (fun i => sliceL base i len) =
      rowKeys base len := by
    rw [rowKeys, ← hN]
  have hlm : len - 1 = (len - 2) + 1 := by omega
  have hallrows : allRowKeys base (len - 1) =
      allRowKeys base (len - 2) ++ rowKeys base len := by
    rw [hlm, allRowKeys_succ]
    have h2 : len - 2 + 2 = len := by omega
    rw [h2]
  refine ⟨?_, haregf, ⟨nrepo, hrepof, ?_, hcompf⟩⟩
  · rw [hkeysf, hrow, hallrows, List.append_assoc]
  · rw [hlenf, hallrows, List.length_append]
    congr 1
    rw [rowKeys, List.length_map, List.length_range, ← hN]

theorem loop_count (base : List String) (N : Nat) (hN : N = base.length)
    (hnd : base.Nodup) (hN2 : 2 ≤ N) (acc : String × EngineState)
    (hkeys : acc.2.fragmentRegistry.map Prod.fst = wrapperKeys base) :
    (ingestLoop base N acc).2.fragmentRegistry.map Prod.fst =
      wrapperKeys base ++ allRowKeys base (N - 1) ∧
    (ingestLoop base N acc).2.atomRegistry = acc.2.atomRegistry ∧
    ∃ nrepo, (ingestLoop base N acc).2.nodeRepository =
        acc.2.nodeRepository ++ nrepo ∧
      nrepo.length = (allRowKeys base (N - 1)).length ∧
      ∀ e ∈ nrepo, e.2.isCompositeN = true := by
  rw [ingestLoop, List.range'_eq_map_range, List.foldl_map]
  have hmain := foldl_range_pres (P := fun k b =>
      b.2.fragmentRegistry.map Prod.fst = wrapperKeys base ++ allRowKeys base k ∧
      b.2.atomRegistry = acc.2.atomRegistry ∧
      ∃ nrepo, b.2.nodeRepository = acc.2.nodeRepository ++ nrepo ∧
        nrepo.length = (allRowKeys base k).length ∧
        ∀ e ∈ nrepo, e.2.isCompositeN = true)
    (f := fun acc2 k => (List.range (N - (2 + k) + 1)).foldl
      (ingestStep N base (2 + k)) acc2)
    (N - 1) acc
    ⟨by simpa [allRowKeys] using hkeys, rfl, ⟨[], by simp, by simp [allRowKeys], by simp⟩⟩
    (by
      intro k b hk hb
      rcases hb with ⟨hkeysb, haregb, hrepob⟩
      have hres := loop_row_count base N (2 + k) hN hnd (by omega) (by omega)
        acc.2.nodeRepository acc.2.atomRegistry b
        (by
          have h2 : (2 + k) - 2 = k := by omega
          rw [h2]
          exact hkeysb)
        haregb
        (by
          have h2 : (2 + k) - 2 = k := by omega
          rw [h2]
          exact hrepob)
      have h1 : (2 + k) - 1 = k + 1 := by omega
      rw [h1] at hres
      exact hres)
  exact hmain

theorem baseOf_eq : ∀ (items : List Value) (t : EngineState) (base : List String),
    normalizeItems t items = (base, t) →
    (∀ it ∈ items, isURIString it.jsString = false) →
    baseOfItems t items = base := by
  intro items
  induction items with
  | nil =>
    intro t base h _
    have hb : base = [] := (Prod.mk.inj h.symm).1
    rw [hb]
    rfl
  | cons it rest ih =>
    intro t base h hniu
    have hu : isURIString it.jsString = false := hniu it (by simp)
    have he1 : (normalizeItems t (it :: rest)).1 =
        (getCanonicalAtom t it).1 ::
          (normalizeItems (getCanonicalAtom t it).2 rest).1 := by
      simp [normalizeItems, hu]
    have he2 : (normalizeItems t (it :: rest)).2 =
        (normalizeItems (getCanonicalAtom t it).2 rest).2 := by
      simp [normalizeItems, hu]
    have hst : (normalizeItems (getCanonicalAtom t it).2 rest).2 = t := by
      rw [← he2, h]
    have hcnt : (getCanonicalAtom t it).2.counter ≤ t.counter := by
      have h0 := (mono_normalize rest (getCanonicalAtom t it).2).counterLe
      rw [hst] at h0
      exact h0
    have hhit : ∃ u, lookupL t.atomRegistry it.jsString = some u := by
      cases hm : lookupL t.atomRegistry it.jsString with
      | some u => exact ⟨u, rfl⟩
      | none =>
        exfalso
        have : (getCanonicalAtom t it).2.counter = t.counter + 1 := by
          rw [canonAtom_new hm]
        omega
    rcases hhit with ⟨u, hm⟩
    have hca := canonAtom_hit hm
    have hb1 : (normalizeItems t (it :: rest)).1 = base := congrArg Prod.fst h
    have hbase : base = u :: (normalizeItems (getCanonicalAtom t it).2 rest).1 := by
      rw [← hb1, he1, hca]
    have hrest : normalizeItems t rest =
        ((normalizeItems (getCanonicalAtom t it).2 rest).1, t) := by
      have hs : (getCanonicalAtom t it).2 = t := by rw [hca]
      rw [hs] at hst ⊢
      exact Prod.ext rfl hst
    have hihr := ih t _ hrest (fun it2 h2 => hniu it2 (List.mem_cons_of_mem _ h2))
    rw [hbase]
    show (lookupL t.atomRegistry it.jsString).getD "" :: baseOfItems t rest = _
    rw [hm, hihr]
    rw [hca]
    rfl

theorem counts_of_decomp (s : EngineState) (lA lB lC : List (String × NodeR))
    (h : s.nodeRepository = lA ++ lB ++ lC)
    (hA : ∀ e ∈ lA, e.2.isAtomN = true) (hB : ∀ e ∈ lB, e.2.isWrapperN = true)
    (hC : ∀ e ∈ lC, e.2.isCompositeN = true) :
    countAtoms s = lA.length ∧ countWrappers s = lB.length ∧
      countComposites s = lC.length := by
  refine ⟨?_, ?_, ?_⟩
  · rw [countAtoms, h, List.filter_append, List.filter_append,
      List.length_append, List.length_append]
    rw [filter_all_true hA,
      filter_all_false (fun e he => (wrapper_not_other (hB e he)).1),
      filter_all_false (fun e he => (composite_not_other (hC e he)).1)]
    omega
  · rw [countWrappers, h, List.filter_append, List.filter_append,
      List.length_append, List.length_append]
    rw [filter_all_true hB,
      filter_all_false (fun e he => (atom_not_other (hA e he)).1),
      filter_all_false (fun e he => (composite_not_other (hC e he)).2)]
    omega
  · rw [countComposites, h, List.filter_append, List.filter_append,
      List.length_append, List.length_append]
    rw [filter_all_true hC,
      filter_all_false (fun e he => (atom_not_other (hA e he)).2),
      filter_all_false (fun e he => (wrapper_not_other (hB e he)).2)]
    omega

/-- C1: ingesting `N ≥ 1` distinct raw values (pairwise-distinct string
forms, none shaped like an identifier) into a fresh engine creates exactly
`N` atoms, exactly `N` singleton wrapper fragments and exactly `N(N-1)/2`
composite fragments (`2·composites = N(N-1)`), with one registered fragment
per contiguous sub-sequence of the normalized input. -/
theorem C1_lattice_shape (items : List Value) (hne : items ≠ [])
    (hniu : ∀ it ∈ items, isURIString it.jsString = false)
    (hnd : (items.map Value.jsString).Nodup) :
    countAtoms (ingestSequence initState items).2 = items.length ∧
    countWrappers (ingestSequence initState items).2 = items.length ∧
    2 * countComposites (ingestSequence initState items).2 =
      items.length * (items.length - 1) ∧
    ∀ i len, 1 ≤ len → i + len ≤ items.length →
      (lookupL (ingestSequence initState items).2.fragmentRegistry
        (sliceL (baseOfItems (ingestSequence initState items).2 items) i
          len)).isSome := by
  have hie : items.isEmpty = false := by
    cases items with
    | nil => exact absurd rfl hne
    | cons a t => rfl
  have hpos : 0 < items.length := by
    cases items with
    | nil => exact absurd rfl hne
    | cons a t => simp
  set nr := normalizeItems initState items with hnrdef
  set wr := buildWrappers nr.2 nr.1 with hwrdef
  have hA := normalize_fresh items initState hniu hnd (fun it _ => rfl)
  have hAf : nr.2.fragmentRegistry = [] := hA.2.2.1
  rcases hA.2.2.2 with ⟨nrepoA, hrepA, hlenA, hatomsA⟩
  have hrepA2 : nr.2.nodeRepository = nrepoA := by simpa using hrepA
  have hblen : nr.1.length = items.length := normalize_length items initState
  have hbnd : nr.1.Nodup := hA.1
  have hfreshB : ∀ u ∈ nr.1, lookupL nr.2.fragmentRegistry [u] = none := by
    intro u _
    rw [hAf]
    rfl
  have hB := wrappers_fresh nr.1 nr.2 hbnd hfreshB
  have hkeysB : wr.2.fragmentRegistry.map Prod.fst = wrapperKeys nr.1 := by
    rw [hB.1, hAf]
    rfl
  rcases hB.2.2 with ⟨nrepoB, hrepB, hlenB, hwrapsB⟩
  have hrepB2 : wr.2.nodeRepository = nrepoA ++ nrepoB := by
    rw [hrepB, hrepA2]
  have hwrlen : wr.1.length = nr.1.length := wrappers_length nr.1 nr.2
  by_cases h1 : wr.1.length = 1
  · have hN1 : items.length = 1 := by omega
    have hfinal : ingestSequence initState items =
        (some (wr.1.headD ""), notify wr.2) := by
      simp only [ingestSequence, hie, Bool.false_eq_true, if_false, ite_false,
        ← hnrdef, ← hwrdef, h1, if_pos, ite_true]
    have hbase : baseOfItems (notify wr.2) items = nr.1 :=
      baseOf_eq items (notify wr.2) nr.1
        (normalize_replay items initState (notify wr.2)
          (mono_trans (mono_wrappers nr.1 nr.2) (mono_notify wr.2))) hniu
    have hcounts := counts_of_decomp (notify wr.2) nrepoA nrepoB []
      (by rw [show (notify wr.2).nodeRepository = wr.2.nodeRepository from rfl,
        hrepB2, List.append_nil]) hatomsA hwrapsB (by simp)
    rw [hfinal]
    refine ⟨?_, ?_, ?_, ?_⟩
    · rw [show ((some (wr.1.headD ""), notify wr.2)).2 = notify wr.2 from rfl,
        hcounts.1, hlenA]
    · rw [show ((some (wr.1.headD ""), notify wr.2)).2 = notify wr.2 from rfl,
        hcounts.2.1, hlenB, hblen]
    · rw [show ((some (wr.1.headD ""), notify wr.2)).2 = notify wr.2 from rfl,
        hcounts.2.2, hN1]
      decide
    · intro i len hlen1 hilen
      have hi0 : i = 0 ∧ len = 1 := by omega
      rcases hi0 with ⟨rfl, rfl⟩
      show (lookupL (notify wr.2).fragmentRegistry
        (sliceL (baseOfItems (notify wr.2) items) 0 1)).isSome
      rw [hbase]
      rcases @sliceL_one nr.1 (0) (by omega) with ⟨u, hu, hs⟩
      rw [hs]
      refine lookup_isSome_of_key_mem ?_
      show [u] ∈ wr.2.fragmentRegistry.map Prod.fst
      rw [hkeysB]
      exact List.mem_map.mpr ⟨u, hu, rfl⟩
  · have hN2 : 2 ≤ nr.1.length := by omega
    set res := ingestLoop nr.1 nr.1.length (wr.1.headD "", wr.2) with hresdef
    have hfinal : ingestSequence initState items = (some res.1, notify res.2) := by
      simp only [ingestSequence, hie, Bool.false_eq_true, if_false, ite_false,
        ← hnrdef, ← hwrdef]
      rw [if_neg h1]
    have hloop := loop_count nr.1 nr.1.length rfl hbnd hN2
      (wr.1.headD "", wr.2) hkeysB
    rcases hloop.2.2 with ⟨nrepoC, hrepC, hlenC, hcompC⟩
    have hbase : baseOfItems (notify res.2) items = nr.1 :=
      baseOf_eq items (notify res.2) nr.1
        (normalize_replay items initState (notify res.2)
          (mono_trans (mono_wrappers nr.1 nr.2)
            (mono_trans (mono_ingestLoop nr.1 nr.1.length (wr.1.headD "", wr.2))
              (mono_notify _)))) hniu
    have hcounts := counts_of_decomp (notify res.2) nrepoA nrepoB nrepoC
      (by
        rw [show (notify res.2).nodeRepository = res.2.nodeRepository from rfl,
          hrepC, hrepB2])
      hatomsA hwrapsB hcompC
    rw [hfinal]
    refine ⟨?_, ?_, ?_, ?_⟩
    · rw [show ((some res.1, notify res.2)).2 = notify res.2 from rfl,
        hcounts.1, hlenA]
    · rw [show ((some res.1, notify res.2)).2 = notify res.2 from rfl,
        hcounts.2.1, hlenB, hblen]
    · rw [show ((some res.1, notify res.2)).2 = notify res.2 from rfl,
        hcounts.2.2, hlenC]
      rw [← hblen]
      exact allRowKeys_twice_length rfl hN2
    · intro i len hlen1 hilen
      show (lookupL (notify res.2).fragmentRegistry
        (sliceL (baseOfItems (notify res.2) items) i len)).isSome
      rw [hbase]
      refine lookup_isSome_of_key_mem ?_
      show sliceL nr.1 i len ∈ res.2.fragmentRegistry.map Prod.fst
      rw [hloop.1]
      rcases Nat.lt_or_ge len 2 with h2 | h2
      · have hl1 : len = 1 := by omega
        subst hl1
        rcases @sliceL_one nr.1 (i) (by omega) with ⟨u, hu, hs⟩
        rw [hs]
        exact List.mem_append_left _ (List.mem_map.mpr ⟨u, hu, rfl⟩)
      · exact List.mem_append_right _
          (allRowKeys_mem_intro h2 (by omega) (by omega))

theorem C1_lattice_shape_witness :
    countAtoms (ingestSequence initState [Value.str "a", Value.str "b"]).2 = 2 ∧
    countWrappers (ingestSequence initState [Value.str "a", Value.str "b"]).2 = 2 ∧
    2 * countComposites
      (ingestSequence initState [Value.str "a", Value.str "b"]).2 = 2 ∧
    (lookupL (ingestSequence initState [Value.str "a", Value.str "b"]).2.fragmentRegistry
      (sliceL (baseOfItems (ingestSequence initState [Value.str "a", Value.str "b"]).2
        [Value.str "a", Value.str "b"]) 0 2)).isSome := by
  have h := C1_lattice_shape [Value.str "a", Value.str "b"] (by decide)
    (by decide) (by decide)
  exact ⟨h.1, h.2.1, h.2.2.1, h.2.2.2 0 2 (by decide) (by decide)⟩
